import Mathlib

/-!
Verification of the call-tree visualizer core (java-call-tree-analyzer).

This file gives a shallow embedding of the graph-traversal and
dispatch-resolution engine of `call_tree_visualizer.py` and of the
reverse-endpoint helper `helper/reverse_batch.py`, and proves the spec's
claims about them.

Conventions of the embedding:
* Python strings are Lean `String`s; the handful of Python string
  operations the code uses (`split`, `strip`, `upper`, `lower`, substring
  containment, lexicographic comparison) are re-implemented character by
  character with Python's semantics, because the claims depend on them.
* Python `dict`s that are only iterated / looked up are association lists
  (`List (key × value)`, first binding wins, insertion order preserved);
  Python `set`s whose only operations are `add` / membership / `update`
  are `Finset String`.
* Mutable state that the Python code threads by reference (the
  accumulated-instance set, the `max_depth_reached` flag, the endpoint
  set of the reverse walk) is passed and returned explicitly; the
  path-local `visited` set, which Python copies for every child call, is
  passed downward only.
* Printing is modelled as returning a list of output items.
-/

namespace CallTree

/-! ## Python string primitives -/

/-- Python `str.split(sep)` for a one-character separator: splits at every
occurrence, keeping empty fields, and returns `[s]` when the separator does
not occur. -/
def pySplit (sep : Char) : List Char → List (List Char)
  | [] => [[]]
  | c :: rest =>
    if c = sep then [] :: pySplit sep rest
    else
      match pySplit sep rest with
      | [] => [[c]]
      | s :: ss => (c :: s) :: ss

/-- Python `str.split(sep)` on `String`s. -/
def pySplitS (sep : Char) (s : String) : List String :=
  (pySplit sep s.data).map (fun l => ⟨l⟩)

/-- Python `str.strip()`: drop whitespace from both ends. -/
def pyStrip (s : String) : String :=
  ⟨((s.data.dropWhile Char.isWhitespace).reverse.dropWhile Char.isWhitespace).reverse⟩

/-- Python `str.upper()` (the rule file only ever holds ASCII modes). -/
def pyUpper (s : String) : String :=
  ⟨s.data.map Char.toUpper⟩

/-- Python `str.lower()`. -/
def pyLower (s : String) : String :=
  ⟨s.data.map Char.toLower⟩

/-- Python `sub in s` substring containment. -/
def strContains (s sub : String) : Bool :=
  decide (sub.data <:+: s.data)

/-- Python `c in s` for a single character. -/
def hasChar (s : String) (c : Char) : Bool :=
  s.data.contains c

/-- Python string `<` (lexicographic by code point). -/
def pyStrLtL : List Char → List Char → Bool
  | [], [] => false
  | [], _ :: _ => true
  | _ :: _, [] => false
  | a :: as, b :: bs =>
    if a.val < b.val then true
    else if b.val < a.val then false
    else pyStrLtL as bs

/-- Python string `<` on `String`s. -/
def pyStrLt (a b : String) : Bool :=
  pyStrLtL a.data b.data

/-- Python `s.split(sep, 1)[0]`: the prefix before the first occurrence of
`sep` (the whole string when `sep` is absent). -/
def beforeFirst (sep : Char) (s : String) : String :=
  ⟨s.data.takeWhile (· ≠ sep)⟩

/-- Python `s.split(sep, 1)[1]`: everything after the first occurrence of
`sep` (meaningful only when `sep` occurs). -/
def afterFirst (sep : Char) (s : String) : String :=
  ⟨(s.data.dropWhile (· ≠ sep)).tail⟩

/-! ## Exclusion policy (`ExclusionRuleManager`) -/

/-- The two rule sets of `ExclusionRuleManager`: `include_exclusions`
(mode `I`, suppress the node itself) and `exclude_children` (mode `E`,
cut the subtree). -/
structure ExclusionRuleManager where
  includeExclusions : Finset String
  excludeChildren : Finset String
deriving DecidableEq

/-- `ExclusionRuleManager._extract_class_name`: the part of a signature
before the first `#`, or `None` when there is no `#`. -/
def extractClassName (sig : String) : Option String :=
  if hasChar sig '#' then some ((pySplitS '#' sig).headD "") else none

/-- `ExclusionRuleManager._extract_method_part`: Python `split("#")[1]`,
the segment between the first and the second `#`, or `None` when there is
no `#`. -/
def extractMethodPart (sig : String) : Option String :=
  if hasChar sig '#' then some ((pySplitS '#' sig).getD 1 "") else none

/-- `ExclusionRuleManager.should_include`: `false` when the full
signature, its class name, or its bare member part is in the suppress
set. A `None` extraction (no `#`) skips that strategy, like the Python
`if class_name and ...` truthiness guard skips an empty extraction. -/
def shouldInclude (em : ExclusionRuleManager) (sig : String) : Bool :=
  if sig ∈ em.includeExclusions then false
  else if (extractClassName sig).any
      (fun c => decide (c ≠ "") && decide (c ∈ em.includeExclusions)) then false
  else if (extractMethodPart sig).any
      (fun m => decide (m ≠ "") && decide (m ∈ em.includeExclusions)) then false
  else true

/-- `ExclusionRuleManager.should_exclude_children`: the same three-way
match against the cut set. -/
def shouldExcludeChildren (em : ExclusionRuleManager) (sig : String) : Bool :=
  if sig ∈ em.excludeChildren then true
  else if (extractClassName sig).any
      (fun c => decide (c ≠ "") && decide (c ∈ em.excludeChildren)) then true
  else if (extractMethodPart sig).any
      (fun m => decide (m ≠ "") && decide (m ∈ em.excludeChildren)) then true
  else false

/-- One line of `ExclusionRuleManager.load_rules`: strip the line, skip
blanks and `#` comments, require exactly two tab-separated fields, strip
both, upper-case the mode, and add the target to the matching rule set;
any other mode only produces a warning. Malformed lines leave the rule
sets unchanged. -/
def processLine (em : ExclusionRuleManager) (rawLine : String) : ExclusionRuleManager :=
  let line := pyStrip rawLine
  if line = "" then em
  else if line.data.head? = some '#' then em
  else
    match pySplitS '\t' line with
    | [target, mode] =>
      let target := pyStrip target
      let mode := pyUpper (pyStrip mode)
      if mode = "I" then { em with includeExclusions := insert target em.includeExclusions }
      else if mode = "E" then { em with excludeChildren := insert target em.excludeChildren }
      else em
    | _ => em

/-- `ExclusionRuleManager.load_rules`: process every line in order. -/
def loadRules (em : ExclusionRuleManager) (lines : List String) : ExclusionRuleManager :=
  lines.foldl processLine em

/-! ## Data model (graph store) -/

/-- One forward edge as stored by `load_data`: callee signature, the
`is_parent_method` flag (kept as the literal `"Yes"` / `"No"` strings the
code stores), and the raw comma-separated implementation-candidate
string. -/
structure CallEdge where
  method : String
  isParentMethod : String
  implementations : String
deriving DecidableEq

/-- The fields of a `method_info` entry that the claims touch. -/
structure MethodInfo where
  className : String
  parent : String
  visibility : String
  isStatic : Bool
  isEntryPoint : Bool
  entryType : String
  annotations : String
  classAnnotations : String
  javadoc : String
  createdInstances : List String
deriving DecidableEq

/-- A `class_data` entry; `fieldInitializers` holds the
`initializedClass` names (possibly empty strings, which the collector
filters out). -/
structure ClassData where
  fieldInitializers : List String
deriving DecidableEq

/-- An `interface_data` entry. The loader always stores a dict with the
keys `annotations`, `annotationRaws`, `javadoc`, `superInterfaces`, so a
stored entry is always a non-empty — truthy — dict; key presence is
therefore what the code's `interface_data.get(name, "")` truthiness tests
decide. -/
structure InterfaceData where
  annotations : List String
  javadoc : String
  superInterfaces : List String
deriving DecidableEq

/-- The in-memory store built by `load_data`. Python dicts become
association lists (first binding wins, insertion order preserved). -/
structure Store where
  forwardCalls : List (String × List CallEdge)
  reverseCalls : List (String × List String)
  methodInfo : List (String × MethodInfo)
  classInfo : List (String × List String)
  classData : List (String × ClassData)
  interfaceData : List (String × InterfaceData)

/-- Association-list lookup: first binding wins (Python dict lookup). -/
def lookupA {α : Type} (l : List (String × α)) (k : String) : Option α :=
  (l.find? (fun p => p.1 == k)).map (·.2)

/-- `self.forward_calls.get(m, [])`. -/
def lookupForward (st : Store) (m : String) : List CallEdge :=
  (lookupA st.forwardCalls m).getD []

/-- `self.reverse_calls.get(m, [])`. -/
def lookupReverse (st : Store) (m : String) : List String :=
  (lookupA st.reverseCalls m).getD []

/-- `self.method_info.get(m)`. -/
def lookupMethod (st : Store) (m : String) : Option MethodInfo :=
  lookupA st.methodInfo m

/-- `self.class_info.get(c, [])`. -/
def lookupClassInfo (st : Store) (c : String) : List String :=
  (lookupA st.classInfo c).getD []

/-- `self.class_data.get(c)`. -/
def lookupClassData (st : Store) (c : String) : Option ClassData :=
  lookupA st.classData c

/-- `self.interface_data.get(c)`. -/
def lookupInterface (st : Store) (c : String) : Option InterfaceData :=
  lookupA st.interfaceData c

/-! ## Hierarchy resolver (`_find_implementation_method`) -/

/-- The scan `for method_sig, info in self.method_info.items(): if
info.get("class") == cls and "#" in method_sig and
method_sig.split("#", 1)[1] == member: return method_sig` — first match
in insertion order. -/
def scanOwned (methodInfo : List (String × MethodInfo)) (cls member : String) :
    Option String :=
  (methodInfo.find? (fun p =>
    p.2.className == cls && hasChar p.1 '#' && afterFirst '#' p.1 == member)).map (·.1)

/-- The first (pre-BFS) parent pass of `_find_implementation_method`: one
iteration of the `while` loop — scan the direct parents in list order,
skipping parents registered as interfaces, and return the first owned
match. -/
def scanParents (st : Store) (member : String) : List String → Option String
  | [] => none
  | p :: ps =>
    if (lookupInterface st p).isSome then scanParents st member ps
    else
      match scanOwned st.methodInfo p member with
      | some sig => some sig
      | none => scanParents st member ps

/-- All class names mentioned by `class_info` (keys and parent lists):
the space the BFS can ever enqueue from. -/
def allClassNames (st : Store) : Finset String :=
  (st.classInfo.map (·.1)).toFinset ∪ (st.classInfo.flatMap (·.2)).toFinset

theorem lookupClassInfo_subset_allClassNames (st : Store) (c x : String)
    (hx : x ∈ lookupClassInfo st c) : x ∈ allClassNames st := by
  unfold lookupClassInfo lookupA at hx
  cases hfind : st.classInfo.find? (fun p => p.1 == c) with
  | none => simp [hfind] at hx
  | some p =>
    have hmem := List.mem_of_find?_eq_some hfind
    simp only [hfind, Option.map_some, Option.getD_some] at hx
    unfold allClassNames
    refine Finset.mem_union_right _ ?_
    simp only [List.mem_toFinset, List.mem_flatMap]
    exact ⟨p, hmem, hx⟩

theorem sdiffCons_eq_of_mem (allC : Finset String) (cur : String) (rest : List String)
    (visited : Finset String) (h : cur ∈ visited) :
    (allC ∪ (cur :: rest).toFinset) \ visited = (allC ∪ rest.toFinset) \ visited := by
  ext x
  simp only [Finset.mem_sdiff, Finset.mem_union, List.toFinset_cons, Finset.mem_insert]
  constructor
  · rintro ⟨hx | (rfl | hx), hv⟩
    · exact ⟨Or.inl hx, hv⟩
    · exact absurd h hv
    · exact ⟨Or.inr hx, hv⟩
  · rintro ⟨hx | hx, hv⟩
    · exact ⟨Or.inl hx, hv⟩
    · exact ⟨Or.inr (Or.inr hx), hv⟩

theorem sdiffCard_lt_of_not_mem (allC : Finset String) (cur : String)
    (rest extra : List String) (visited : Finset String) (h : cur ∉ visited)
    (hextra : ∀ x ∈ extra, x ∈ allC) :
    ((allC ∪ (rest ++ extra).toFinset) \ insert cur visited).card
      < ((allC ∪ (cur :: rest).toFinset) \ visited).card := by
  apply Finset.card_lt_card
  rw [Finset.ssubset_iff_subset_ne]
  constructor
  · intro x hx
    simp only [Finset.mem_sdiff, Finset.mem_union, List.toFinset_append,
      List.mem_toFinset, Finset.mem_insert, List.toFinset_cons,
      not_or] at hx ⊢
    obtain ⟨hx1, hne, hv⟩ := hx
    refine ⟨?_, hv⟩
    rcases hx1 with hx1 | hx1
    · exact Or.inl hx1
    · rcases hx1 with hx1 | hx1
      · exact Or.inr (Or.inr hx1)
      · exact Or.inl (hextra x hx1)
  · intro heq
    have hcur : cur ∈ (allC ∪ (cur :: rest).toFinset) \ visited :=
      Finset.mem_sdiff.mpr ⟨Finset.mem_union_right _ (by simp), h⟩
    rw [← heq] at hcur
    exact (Finset.mem_sdiff.mp hcur).2 (Finset.mem_insert_self cur visited)

theorem sdiffCard_lt_of_not_mem_nil (allC : Finset String) (cur : String)
    (rest : List String) (visited : Finset String) (h : cur ∉ visited) :
    ((allC ∪ rest.toFinset) \ insert cur visited).card
      < ((allC ∪ (cur :: rest).toFinset) \ visited).card := by
  have := sdiffCard_lt_of_not_mem allC cur rest [] visited h (by intro x hx; cases hx)
  simpa using this

/-- The breadth-first phase of `_find_implementation_method`: pop the
queue front, skip already-visited names, skip names registered as
interfaces entirely (their owned methods are not checked and their
parents are not enqueued), return an owned member-part match, otherwise
enqueue the popped class's parents. -/
def bfsImpl (st : Store) (member : String) :
    (queue : List String) → (visited : Finset String) → Option String
  | [], _ => none
  | cur :: rest, visited =>
    if cur ∈ visited then bfsImpl st member rest visited
    else
      if (lookupInterface st cur).isSome then bfsImpl st member rest (insert cur visited)
      else
        match scanOwned st.methodInfo cur member with
        | some sig => some sig
        | none => bfsImpl st member (rest ++ lookupClassInfo st cur) (insert cur visited)
termination_by queue visited =>
  (((allClassNames st ∪ queue.toFinset) \ visited).card, queue.length)
decreasing_by
  · have hcv : cur ∈ visited := by assumption
    rw [sdiffCons_eq_of_mem (allClassNames st) cur rest visited hcv]
    exact Prod.Lex.right _ (Nat.lt_succ_self _)
  · have hcv : cur ∉ visited := by assumption
    exact Prod.Lex.left _ _
      (sdiffCard_lt_of_not_mem_nil (allClassNames st) cur rest visited hcv)
  · have hcv : cur ∉ visited := by assumption
    exact Prod.Lex.left _ _
      (sdiffCard_lt_of_not_mem (allClassNames st) cur rest (lookupClassInfo st cur)
        visited hcv (lookupClassInfo_subset_allClassNames st cur))

/-- `CallTreeVisualizer._find_implementation_method`: extract the member
part after the first `#`, scan the candidate class's own methods, then
run the single direct-parent pass and the breadth-first ancestor search
(both of which skip ancestors registered as interfaces). -/
def findImplementationMethod (st : Store) (abstractMethod implClass : String) :
    Option String :=
  if ¬ hasChar abstractMethod '#' then none
  else
    let member := afterFirst '#' abstractMethod
    match scanOwned st.methodInfo implClass member with
    | some sig => some sig
    | none =>
      match scanParents st member (lookupClassInfo st implClass) with
      | some sig => some sig
      | none => bfsImpl st member (lookupClassInfo st implClass) {implClass}

/-! ## Instance-type tracker and implementation filter -/

/-- `CallTreeVisualizer._collect_created_instances`: the method's own
`createdInstances` plus the non-empty `initializedClass` names of its
class's field initializers. -/
def collectCreatedInstances (st : Store) (method : String) : Finset String :=
  let info := lookupMethod st method
  let fromMethod := ((info.map (·.createdInstances)).getD []).toFinset
  let cls := (info.map (·.className)).getD ""
  let fromFields : Finset String :=
    if cls ≠ "" then
      ((((lookupClassData st cls).map (·.fieldInitializers)).getD []).filter
        (· ≠ "")).toFinset
    else ∅
  fromMethod ∪ fromFields

/-- `CallTreeVisualizer._filter_implementations_by_accumulated_instances`:
keep the candidates present in the accumulated set; when none survive (or
either input is empty/falsy) return the full candidate list. -/
def filterImplementations (acc : Finset String)
    (implementations : List String) : List String :=
  if implementations = [] ∨ acc = ∅ then implementations
  else
    let filtered := implementations.filter (fun i => decide (i ∈ acc))
    if filtered ≠ [] then filtered else implementations

/-- `CallTreeVisualizer._find_parent_methods`: split the method's stored
`parent` string on commas and collect every stored method whose class is
one of those parents and whose member part (after the first `#`) matches. -/
def findParentMethods (st : Store) (method : String) : List String :=
  if ¬ hasChar method '#' then []
  else
    let memberPart := afterFirst '#' method
    let parentStr := ((lookupMethod st method).map (·.parent)).getD ""
    if parentStr = "" then []
    else
      let parentClasses := ((pySplitS ',' parentStr).map pyStrip).filter (· ≠ "")
      parentClasses.flatMap (fun pc =>
        (st.methodInfo.filter (fun p =>
          p.2.className == pc && hasChar p.1 '#' &&
            afterFirst '#' p.1 == memberPart)).map (·.1))

/-! ## Forward traversal engine (`_print_tree_recursive`) -/

/-- One printed line of the tree walk, reduced to its structure: the
method nodes themselves and the marker lines the walk interleaves. -/
inductive OutItem where
  | node (method : String) (depth : Nat) (circular : Bool)
  | parentMarker (depth : Nat)
  | childCut (depth : Nat)
  | implCut (depth : Nat)
  | implExpand (depth : Nat) (implClass : String)
  | implNote (depth : Nat) (info : String)
  | overrideMarker (depth : Nat)
deriving DecidableEq

/-- The arguments of `_print_tree_recursive` that stay fixed through the
recursion (presentation-only flags are dropped). -/
structure TravCtx where
  st : Store
  em : ExclusionRuleManager
  debugMode : Bool
  isForward : Bool
  followImplementations : Bool

mutual

/-- `CallTreeVisualizer._print_tree_recursive`. Returns the emitted
items, the accumulated-instance set (shared by reference in Python, so
threaded in and out here), and the `max_depth_reached` flag. The
path-local `visited` set is copied for every child call in Python, so it
is passed down only. -/
def printTreeRec (ctx : TravCtx) (method : String) (depth maxDepth : Nat)
    (visited acc : Finset String) (reached : Bool) :
    List OutItem × Finset String × Bool :=
  if maxDepth < depth then ([], acc, true)
  else if ¬ shouldInclude ctx.em method then ([], acc, reached)
  else if method ∈ visited then ([OutItem.node method depth true], acc, reached)
  else
    let acc2 := acc ∪ collectCreatedInstances ctx.st method
    let visited2 := insert method visited
    if shouldExcludeChildren ctx.em method then
      ([OutItem.node method depth false, OutItem.childCut (depth + 1)], acc2, reached)
    else if ctx.isForward then
      let r := goCallees ctx (lookupForward ctx.st method) (depth + 1) maxDepth
        visited2 acc2 reached
      (OutItem.node method depth false :: r.1, r.2)
    else
      let r := goRevCallees ctx (lookupReverse ctx.st method) (depth + 1) maxDepth
        visited2 acc2 reached
      (OutItem.node method depth false :: r.1, r.2)
termination_by (maxDepth + 1 - depth, 0, 0)

/-- The `for callee_info in callees` loop body of
`_print_tree_recursive`: per edge, the include check, the
parent-method marker, the recursive descent, and the
implementation-candidate block. -/
def goCallees (ctx : TravCtx) (edges : List CallEdge) (childDepth maxDepth : Nat)
    (visited acc : Finset String) (reached : Bool) :
    List OutItem × Finset String × Bool :=
  match edges with
  | [] => ([], acc, reached)
  | e :: rest =>
    if ¬ shouldInclude ctx.em e.method then
      goCallees ctx rest childDepth maxDepth visited acc reached
    else
      let pm : List OutItem :=
        if e.isParentMethod = "Yes" then [OutItem.parentMarker childDepth] else []
      let r1 := printTreeRec ctx e.method childDepth maxDepth visited acc reached
      let ib := implBlockFor ctx e.method e.implementations childDepth maxDepth
        visited r1.2.1 r1.2.2
      let r3 := goCallees ctx rest childDepth maxDepth visited ib.2.1 ib.2.2
      (pm ++ r1.1 ++ ib.1 ++ r3.1, r3.2)
termination_by (maxDepth + 1 - childDepth, 3, edges.length)

/-- The `if callee_info["implementations"]:` block of the loop body:
debug notes, the cut check on the callee, the accumulated-instance
filter, and the expansion recursion over the surviving candidates. The
test is on the raw comma-separated string, as in the code. -/
def implBlockFor (ctx : TravCtx) (callee impls : String)
    (childDepth maxDepth : Nat) (visited acc : Finset String) (reached : Bool) :
    List OutItem × Finset String × Bool :=
  if impls ≠ "" then
    let implInfos := ((pySplitS ',' impls).map pyStrip).filter (· ≠ "")
    let notes : List OutItem :=
      if ctx.debugMode then
        (implInfos.filter (fun i =>
          shouldInclude ctx.em ((pySplitS ' ' i).headD ""))).map
          (fun i => OutItem.implNote childDepth i)
      else []
    if ctx.followImplementations then
      if shouldExcludeChildren ctx.em callee then
        (notes ++ [OutItem.implCut childDepth], acc, reached)
      else
        let implClasses := implInfos.map (fun i => (pySplitS ' ' i).headD "")
        let filtered :=
          if acc ≠ ∅ then filterImplementations acc implClasses else implClasses
        let r2 := goImpls ctx callee filtered childDepth maxDepth visited
          acc reached
        (notes ++ r2.1, r2.2)
    else (notes, acc, reached)
  else ([], acc, reached)
termination_by (maxDepth + 1 - childDepth, 2, 0)

/-- The `for impl_class in filtered_impl_classes` loop: resolve each
candidate and descend into the resolved method. -/
def goImpls (ctx : TravCtx) (callee : String) (impls : List String)
    (childDepth maxDepth : Nat) (visited acc : Finset String) (reached : Bool) :
    List OutItem × Finset String × Bool :=
  match impls with
  | [] => ([], acc, reached)
  | implClass :: rest =>
    match findImplementationMethod ctx.st callee implClass with
    | none => goImpls ctx callee rest childDepth maxDepth visited acc reached
    | some implMethod =>
      if ¬ shouldInclude ctx.em implMethod then
        goImpls ctx callee rest childDepth maxDepth visited acc reached
      else
        let r1 := printTreeRec ctx implMethod childDepth maxDepth visited acc reached
        let r2 := goImpls ctx callee rest childDepth maxDepth visited r1.2.1 r1.2.2
        (OutItem.implExpand childDepth implClass :: r1.1 ++ r2.1, r2.2)
termination_by (maxDepth + 1 - childDepth, 1, impls.length)

/-- The `for caller in callers` loop of the `is_forward=False` branch. -/
def goRevCallees (ctx : TravCtx) (callers : List String)
    (childDepth maxDepth : Nat) (visited acc : Finset String) (reached : Bool) :
    List OutItem × Finset String × Bool :=
  match callers with
  | [] => ([], acc, reached)
  | c :: rest =>
    let r1 := printTreeRec ctx c childDepth maxDepth visited acc reached
    let r2 := goRevCallees ctx rest childDepth maxDepth visited r1.2.1 r1.2.2
    (r1.1 ++ r2.1, r2.2)
termination_by (maxDepth + 1 - childDepth, 3, callers.length)

end

/-- `CallTreeVisualizer.print_forward_tree`: root call at depth 0 with an
empty path-local visited set and `accumulated_instances=None` (the first
node replaces `None` by its own instance set, which is exactly what
starting from the empty set yields). -/
def printForwardTree (st : Store) (em : ExclusionRuleManager)
    (debugMode followImplementations : Bool) (root : String) (maxDepth : Nat) :
    List OutItem × Finset String × Bool :=
  printTreeRec ⟨st, em, debugMode, true, followImplementations⟩ root 0 maxDepth ∅ ∅ false

/-! ## Reverse traversal engine (`_print_reverse_tree_recursive`) -/

/-- The signature universe the reverse walk can ever recurse into:
stored method signatures (override pivots come from there), reverse-map
keys, and all recorded caller signatures. Used only for termination. -/
def univR (st : Store) : Finset String :=
  (st.methodInfo.map (·.1)).toFinset ∪ (st.reverseCalls.map (·.1)).toFinset ∪
    (st.reverseCalls.flatMap (·.2)).toFinset

theorem findParentMethods_mem_univR (st : Store) (m x : String)
    (hx : x ∈ findParentMethods st m) : x ∈ univR st := by
  unfold findParentMethods at hx
  split at hx
  · cases hx
  · dsimp only at hx
    split at hx
    · cases hx
    · simp only [List.mem_flatMap, List.mem_map, List.mem_filter] at hx
      obtain ⟨pc, _, p, ⟨hp, _⟩, rfl⟩ := hx
      unfold univR
      refine Finset.mem_union_left _ (Finset.mem_union_left _ ?_)
      simp only [List.mem_toFinset, List.mem_map]
      exact ⟨p, hp, rfl⟩

theorem lookupReverse_mem_univR (st : Store) (m x : String)
    (hx : x ∈ lookupReverse st m) : x ∈ univR st := by
  unfold lookupReverse lookupA at hx
  cases hfind : st.reverseCalls.find? (fun p => p.1 == m) with
  | none => simp [hfind] at hx
  | some p =>
    have hmem := List.mem_of_find?_eq_some hfind
    simp only [hfind, Option.map_some, Option.getD_some] at hx
    unfold univR
    refine Finset.mem_union_right _ ?_
    simp only [List.mem_toFinset, List.mem_flatMap]
    exact ⟨p, hmem, hx⟩

theorem revCard_le (univ s t visited : Finset String) (hst : s ⊆ t) :
    ((univ ∪ s) \ visited).card ≤ ((univ ∪ t) \ visited).card :=
  Finset.card_le_card
    (Finset.sdiff_subset_sdiff (Finset.union_subset_union_right hst)
      (Finset.Subset.refl _))

theorem revCard_lt (univ sub visited : Finset String) (m : String)
    (hsub : sub ⊆ univ) (hm : m ∉ visited) :
    ((univ ∪ sub) \ insert m visited).card < ((univ ∪ {m}) \ visited).card := by
  rw [Finset.union_eq_left.mpr hsub]
  apply Finset.card_lt_card
  rw [Finset.ssubset_iff_subset_ne]
  constructor
  · intro x hx
    simp only [Finset.mem_sdiff, Finset.mem_insert, not_or] at hx
    obtain ⟨hx1, _, hx3⟩ := hx
    exact Finset.mem_sdiff.mpr ⟨Finset.mem_union_left _ hx1, hx3⟩
  · intro heq
    have hmem : m ∈ (univ ∪ {m}) \ visited :=
      Finset.mem_sdiff.mpr ⟨Finset.mem_union_right _ (Finset.mem_singleton_self m), hm⟩
    rw [← heq] at hmem
    exact (Finset.mem_sdiff.mp hmem).2 (Finset.mem_insert_self m visited)

theorem lex4_of_le {a1 a2 b1 b2 c1 c2 d1 d2 : Nat} (h1 : a1 ≤ a2) (h2 : b1 = b2)
    (h3 : c1 < c2 ∨ (c1 = c2 ∧ d1 < d2)) :
    Prod.Lex (· < ·) (Prod.Lex (· < ·) (Prod.Lex (· < ·) (· < ·)))
      (a1, b1, c1, d1) (a2, b2, c2, d2) := by
  rcases lt_or_eq_of_le h1 with h | h
  · exact Prod.Lex.left _ _ h
  · subst h
    subst h2
    rcases h3 with h3 | ⟨h3, h4⟩
    · exact Prod.Lex.right _ (Prod.Lex.right _ (Prod.Lex.left _ _ h3))
    · subst h3
      exact Prod.Lex.right _ (Prod.Lex.right _ (Prod.Lex.right _ h4))

mutual

/-- `CallTreeVisualizer._print_reverse_tree_recursive`: depth ceiling,
include check, path-local circular check, then either pivot to the
override/interface declarations (same depth) when there are no callers,
record the method as a terminal endpoint, or descend into the callers.
Returns the emitted items, the shared terminal-endpoint set, and the
`max_depth_reached` flag. -/
def printRevRec (st : Store) (em : ExclusionRuleManager) (followOverrides : Bool)
    (method : String) (depth maxDepth : Nat) (visited endpoints : Finset String)
    (reached : Bool) : List OutItem × Finset String × Bool :=
  if maxDepth < depth then ([], endpoints, true)
  else if ¬ shouldInclude em method then ([], endpoints, reached)
  else if method ∈ visited then ([OutItem.node method depth true], endpoints, reached)
  else
    let visited2 := insert method visited
    let callers := lookupReverse st method
    if hcal : callers = [] then
      if followOverrides then
        let parents := findParentMethods st method
        if parents = [] then
          ([OutItem.node method depth false], insert method endpoints, reached)
        else
          let r := revParentsGo st em followOverrides (findParentMethods st method)
            depth maxDepth visited2 endpoints reached
          (OutItem.node method depth false :: OutItem.overrideMarker depth :: r.1, r.2)
      else
        ([OutItem.node method depth false], insert method endpoints, reached)
    else
      let r := revCallersGo st em followOverrides (lookupReverse st method)
        (depth + 1) maxDepth visited2 endpoints reached
      (OutItem.node method depth false :: r.1, r.2)
termination_by (((univR st ∪ {method}) \ visited).card, maxDepth + 1 - depth, 0, 0)
decreasing_by
  · have hm : method ∉ visited := by assumption
    exact Prod.Lex.left _ _ (revCard_lt (univR st) _ visited method
      (by
        intro x hx
        exact findParentMethods_mem_univR st method x (List.mem_toFinset.mp hx)) hm)
  · have hm : method ∉ visited := by assumption
    exact Prod.Lex.left _ _ (revCard_lt (univR st) _ visited method
      (by
        intro x hx
        exact lookupReverse_mem_univR st method x (List.mem_toFinset.mp hx)) hm)

/-- The `for parent_method in parent_methods` loop: recurse at the same
depth with per-sibling copies of the visited set, threading the shared
endpoint set. -/
def revParentsGo (st : Store) (em : ExclusionRuleManager) (followOverrides : Bool)
    (parents : List String) (depth maxDepth : Nat)
    (visited endpoints : Finset String) (reached : Bool) :
    List OutItem × Finset String × Bool :=
  match parents with
  | [] => ([], endpoints, reached)
  | p :: rest =>
    let r1 := printRevRec st em followOverrides p depth maxDepth visited
      endpoints reached
    let r2 := revParentsGo st em followOverrides rest depth maxDepth visited
      r1.2.1 r1.2.2
    (r1.1 ++ r2.1, r2.2)
termination_by
  (((univR st ∪ parents.toFinset) \ visited).card, maxDepth + 1 - depth, 1,
    parents.length)
decreasing_by
  · apply lex4_of_le
    · apply revCard_le
      intro x hx
      simp only [Finset.mem_singleton] at hx
      simp [hx]
    · rfl
    · left
      omega
  · apply lex4_of_le
    · apply revCard_le
      intro x hx
      simp only [List.toFinset_cons, Finset.mem_insert]
      exact Or.inr hx
    · rfl
    · right
      exact ⟨rfl, by simp⟩

/-- The `for caller in callers` loop: recurse at depth+1 with per-sibling
copies of the visited set, threading the shared endpoint set. -/
def revCallersGo (st : Store) (em : ExclusionRuleManager) (followOverrides : Bool)
    (callers : List String) (childDepth maxDepth : Nat)
    (visited endpoints : Finset String) (reached : Bool) :
    List OutItem × Finset String × Bool :=
  match callers with
  | [] => ([], endpoints, reached)
  | c :: rest =>
    let r1 := printRevRec st em followOverrides c childDepth maxDepth visited
      endpoints reached
    let r2 := revCallersGo st em followOverrides rest childDepth maxDepth visited
      r1.2.1 r1.2.2
    (r1.1 ++ r2.1, r2.2)
termination_by
  (((univR st ∪ callers.toFinset) \ visited).card, maxDepth + 1 - childDepth, 1,
    callers.length)
decreasing_by
  · apply lex4_of_le
    · apply revCard_le
      intro x hx
      simp only [Finset.mem_singleton] at hx
      simp [hx]
    · rfl
    · left
      omega
  · apply lex4_of_le
    · apply revCard_le
      intro x hx
      simp only [List.toFinset_cons, Finset.mem_insert]
      exact Or.inr hx
    · rfl
    · right
      exact ⟨rfl, by simp⟩

end

/-- `CallTreeVisualizer.print_reverse_tree`: entry at depth 0 with empty
visited and endpoint sets; afterwards the endpoint set is rendered. -/
def printReverseTree (st : Store) (em : ExclusionRuleManager)
    (followOverrides : Bool) (target : String) (maxDepth : Nat) :
    List OutItem × Finset String × Bool :=
  printRevRec st em followOverrides target 0 maxDepth ∅ ∅ false

/-! ## Reverse-endpoint helper (`helper/reverse_batch.py`) -/

/-- A `class_data` entry of the helper script: `superClass` (empty string
standing for Python `None`) and the pre-flattened `allInterfaces` list. -/
structure HClassData where
  superClass : String
  allInterfaces : List String
deriving DecidableEq

/-- The helper's inputs: the reverse call map, the `method` field of every
entry of `methods_data` (the only field the search reads), and the class
data map. -/
structure HData where
  reverseCalls : List (String × List String)
  methodsData : List String
  classData : List (String × HClassData)

/-- `reverse_calls.get(m, [])` of the helper (a `defaultdict(list)`). -/
def hLookupReverse (d : HData) (m : String) : List String :=
  ((d.reverseCalls.find? (fun p => p.1 == m)).map (·.2)).getD []

/-- `reverse_batch.find_parent_methods`: build `superClass#memberPart`
and `interface#memberPart` candidates and keep those that exist in
`methods_data` (the Python loop appends the first hit and breaks, which
is exactly a membership test). -/
def hFindParentMethods (d : HData) (method : String) : List String :=
  if ¬ hasChar method '#' then []
  else
    let className := beforeFirst '#' method
    let methodPart := afterFirst '#' method
    let ci := lookupA d.classData className
    let superClass := (ci.map (·.superClass)).getD ""
    let fromSuper :=
      if superClass ≠ "" then
        let sig := superClass ++ "#" ++ methodPart
        if d.methodsData.contains sig then [sig] else []
      else []
    let ifaces := (ci.map (·.allInterfaces)).getD []
    let fromIfaces := ifaces.flatMap (fun i =>
      let sig := i ++ "#" ++ methodPart
      if d.methodsData.contains sig then [sig] else [])
    fromSuper ++ fromIfaces

/-- The signature universe of the helper search, for termination only. -/
def univH (d : HData) : Finset String :=
  d.methodsData.toFinset ∪ (d.reverseCalls.map (·.1)).toFinset ∪
    (d.reverseCalls.flatMap (·.2)).toFinset

theorem hFindParentMethods_mem_univH (d : HData) (m x : String)
    (hx : x ∈ hFindParentMethods d m) : x ∈ univH d := by
  unfold hFindParentMethods at hx
  split at hx
  · cases hx
  · dsimp only at hx
    rw [List.mem_append] at hx
    have hdata : x ∈ d.methodsData := by
      rcases hx with hx | hx
      · split at hx
        · split at hx
          · rw [List.mem_singleton] at hx
            subst hx
            simp_all
          · cases hx
        · cases hx
      · rw [List.mem_flatMap] at hx
        obtain ⟨i, _, hx⟩ := hx
        split at hx
        · rw [List.mem_singleton] at hx
          subst hx
          simp_all
        · cases hx
    exact Finset.mem_union_left _ (Finset.mem_union_left _
      (List.mem_toFinset.mpr hdata))

theorem hLookupReverse_mem_univH (d : HData) (m x : String)
    (hx : x ∈ hLookupReverse d m) : x ∈ univH d := by
  unfold hLookupReverse at hx
  cases hfind : d.reverseCalls.find? (fun p => p.1 == m) with
  | none => simp [hfind] at hx
  | some p =>
    have hmem := List.mem_of_find?_eq_some hfind
    simp only [hfind, Option.map_some, Option.getD_some] at hx
    refine Finset.mem_union_right _ ?_
    simp only [List.mem_toFinset, List.mem_flatMap]
    exact ⟨p, hmem, hx⟩

mutual

/-- `reverse_batch.find_final_endpoints._find_recursive`. Unlike the
visualizer walk, the helper's `visited` set is a single shared set that
is never copied, so it is threaded through and returned; the subtype
records that it only ever grows, which the termination argument needs.
Returns `(visited, final_endpoints)`. -/
def hFindRec (d : HData) (maxDepth : Nat) (followOverrides : Bool)
    (method : String) (depth : Nat) (visited endpoints : Finset String) :
    {r : Finset String × Finset String // visited ⊆ r.1} :=
  if maxDepth < depth then ⟨(visited, endpoints), Finset.Subset.refl _⟩
  else if method ∈ visited then ⟨(visited, endpoints), Finset.Subset.refl _⟩
  else
    let visited2 := insert method visited
    let callers := hLookupReverse d method
    if callers = [] then
      if followOverrides then
        let parents := hFindParentMethods d method
        if parents = [] then
          ⟨(visited2, insert method endpoints), Finset.subset_insert _ _⟩
        else
          let r := hParentsGo d maxDepth followOverrides
            (hFindParentMethods d method) depth visited2 endpoints
          ⟨r.1, Finset.Subset.trans (Finset.subset_insert _ _) r.2⟩
      else ⟨(visited2, insert method endpoints), Finset.subset_insert _ _⟩
    else
      let r := hCallersGo d maxDepth followOverrides (hLookupReverse d method)
        (depth + 1) visited2 endpoints
      ⟨r.1, Finset.Subset.trans (Finset.subset_insert _ _) r.2⟩
termination_by (((univH d ∪ {method}) \ visited).card, maxDepth + 1 - depth, 0, 0)
decreasing_by
  · have hm : method ∉ visited := by assumption
    exact Prod.Lex.left _ _ (revCard_lt (univH d) _ visited method
      (by
        intro x hx
        exact hFindParentMethods_mem_univH d method x (List.mem_toFinset.mp hx)) hm)
  · have hm : method ∉ visited := by assumption
    exact Prod.Lex.left _ _ (revCard_lt (univH d) _ visited method
      (by
        intro x hx
        exact hLookupReverse_mem_univH d method x (List.mem_toFinset.mp hx)) hm)

/-- The `for parent_method in parent_methods` loop of the helper: same
depth, shared growing visited set. -/
def hParentsGo (d : HData) (maxDepth : Nat) (followOverrides : Bool)
    (parents : List String) (depth : Nat) (visited endpoints : Finset String) :
    {r : Finset String × Finset String // visited ⊆ r.1} :=
  match parents with
  | [] => ⟨(visited, endpoints), Finset.Subset.refl _⟩
  | p :: rest =>
    let r1 := hFindRec d maxDepth followOverrides p depth visited endpoints
    let r2 := hParentsGo d maxDepth followOverrides rest depth r1.1.1 r1.1.2
    ⟨r2.1, Finset.Subset.trans r1.2 r2.2⟩
termination_by
  (((univH d ∪ parents.toFinset) \ visited).card, maxDepth + 1 - depth, 1,
    parents.length)
decreasing_by
  · apply lex4_of_le
    · apply revCard_le
      intro x hx
      simp only [Finset.mem_singleton] at hx
      simp [hx]
    · rfl
    · left
      omega
  · apply lex4_of_le
    · apply Finset.card_le_card
      apply Finset.sdiff_subset_sdiff
      · apply Finset.union_subset_union_right
        intro x hx
        simp only [List.toFinset_cons, Finset.mem_insert]
        exact Or.inr hx
      · refine (?_ : {r : Finset String × Finset String // visited ⊆ r.1}).2
    · rfl
    · right
      exact ⟨rfl, by simp⟩

/-- The `for caller in callers` loop of the helper: depth + 1, shared
growing visited set. -/
def hCallersGo (d : HData) (maxDepth : Nat) (followOverrides : Bool)
    (callers : List String) (childDepth : Nat) (visited endpoints : Finset String) :
    {r : Finset String × Finset String // visited ⊆ r.1} :=
  match callers with
  | [] => ⟨(visited, endpoints), Finset.Subset.refl _⟩
  | c :: rest =>
    let r1 := hFindRec d maxDepth followOverrides c childDepth visited endpoints
    let r2 := hCallersGo d maxDepth followOverrides rest childDepth r1.1.1 r1.1.2
    ⟨r2.1, Finset.Subset.trans r1.2 r2.2⟩
termination_by
  (((univH d ∪ callers.toFinset) \ visited).card, maxDepth + 1 - childDepth, 1,
    callers.length)
decreasing_by
  · apply lex4_of_le
    · apply revCard_le
      intro x hx
      simp only [Finset.mem_singleton] at hx
      simp [hx]
    · rfl
    · left
      omega
  · apply lex4_of_le
    · apply Finset.card_le_card
      apply Finset.sdiff_subset_sdiff
      · apply Finset.union_subset_union_right
        intro x hx
        simp only [List.toFinset_cons, Finset.mem_insert]
        exact Or.inr hx
      · refine (?_ : {r : Finset String × Finset String // visited ⊆ r.1}).2
    · rfl
    · right
      exact ⟨rfl, by simp⟩

end

/-- `reverse_batch.find_final_endpoints`: run the search from the target
at depth 0 with empty visited and endpoint sets and return the endpoint
set. -/
def findFinalEndpoints (d : HData) (target : String) (maxDepth : Nat)
    (followOverrides : Bool) : Finset String :=
  (hFindRec d maxDepth followOverrides target 0 ∅ ∅).1.2

/-! ## Entry-point classifier -/

/-- The `type_map` translation of the pre-analyzed `entry_type` field in
`_determine_entry_type` (unknown raw values pass through unchanged). -/
def mapEntryType (t : String) : String :=
  if t = "Main" then "Main Method"
  else if t = "Test" then "Test Method"
  else if t = "HTTP" then "HTTP Endpoint"
  else if t = "SOAP" then "SOAP Endpoint"
  else if t = "Scheduled" then "Scheduled Job"
  else if t = "Event" then "Event Listener"
  else if t = "Lifecycle" then "Lifecycle Method"
  else if t = "Servlet" then "Servlet"
  else if t = "SpringBoot" then "Spring Boot Runner"
  else if t = "Thread" then "Runnable/Callable"
  else if t = "Bean" then "Bean Factory"
  else t

/-- Python `any(x in s for x in subs)`. -/
def anyContains (s : String) (subs : List String) : Bool :=
  subs.any (strContains s)

/-- `CallTreeVisualizer._check_entry_type_from_info`: the fixed cascade
of annotation-substring tests, in source order. Note the main-method
heuristic tests `is_static` together with `"main"` occurring in the
lower-cased owning class name. -/
def checkEntryTypeFromInfo (info : MethodInfo) : String :=
  if info.isStatic && strContains (pyLower info.className) "main" then "Main Method"
  else if anyContains info.annotations
    ["Test", "TestTemplate", "ParameterizedTest", "RepeatedTest",
      "TestFactory"] then "Test Method"
  else if anyContains info.annotations
    ["RequestMapping", "GetMapping", "PostMapping", "PutMapping",
      "DeleteMapping", "PatchMapping"] then "HTTP Endpoint (Spring)"
  else if anyContains info.classAnnotations
    ["Controller", "RestController"] then "HTTP Endpoint (Spring)"
  else if anyContains info.annotations
    ["Path", "GET", "POST", "PUT", "DELETE", "PATCH"] then "HTTP Endpoint (JAX-RS)"
  else if strContains info.annotations "WebMethod" then "SOAP Endpoint (JAX-WS)"
  else if anyContains info.classAnnotations
    ["WebService", "WebServiceProvider"] then "SOAP Endpoint (JAX-WS)"
  else if anyContains info.annotations
    ["Scheduled", "Schedules", "Async"] then "Scheduled Job"
  else if anyContains info.annotations
    ["EventListener", "TransactionalEventListener", "JmsListener",
      "RabbitListener", "KafkaListener", "StreamListener", "MessageMapping",
      "SubscribeMapping"] then "Event Listener"
  else if anyContains info.annotations
    ["PostConstruct", "PreDestroy", "BeforeAll", "AfterAll", "BeforeEach",
      "AfterEach", "Before", "After", "BeforeClass", "AfterClass"] then
    "Lifecycle Method"
  else if strContains info.annotations "Bean" then "Bean Factory"
  else if strContains info.annotations "WebServlet" ||
    strContains info.classAnnotations "WebServlet" then "Servlet"
  else if info.visibility = "public" then "Public Method"
  else "Unknown"

/-- `CallTreeVisualizer._entry_priority`: smaller is more important;
unlisted categories fall to 14. -/
def entryPriority (t : String) : Nat :=
  if t = "Main Method" then 1
  else if t = "HTTP Endpoint (Spring)" then 2
  else if t = "HTTP Endpoint (JAX-RS)" then 3
  else if t = "SOAP Endpoint (JAX-WS)" then 4
  else if t = "Servlet" then 5
  else if t = "Spring Boot Runner" then 6
  else if t = "Scheduled Job" then 7
  else if t = "Event Listener" then 8
  else if t = "Runnable/Callable" then 9
  else if t = "Lifecycle Method" then 10
  else if t = "Test Method" then 11
  else if t = "Bean Factory" then 12
  else if t = "Public Method" then 13
  else if t = "Unknown" then 14
  else 14

/-- The candidate list `_determine_entry_type` assembles before sorting:
the mapped pre-analyzed type, the method's own annotation-based category,
and the categories of its override/interface declarations (skipping
parent signatures with no stored — falsy — info dict). -/
def determineEntryTypeCandidates (st : Store) (method : String)
    (info : MethodInfo) : List String :=
  (if info.entryType ≠ "" then [mapEntryType info.entryType] else []) ++
  (let e := checkEntryTypeFromInfo info
   if e ≠ "" then [e] else []) ++
  ((findParentMethods st method).flatMap (fun pm =>
    match lookupMethod st pm with
    | none => []
    | some pi =>
      let e := checkEntryTypeFromInfo pi
      if e ≠ "" then [e] else []))

/-- The sort key of `candidates.sort(key=lambda x: self._entry_priority(x))`:
compare candidate categories by priority. -/
def entryTypeLe (a b : String) : Prop :=
  entryPriority a ≤ entryPriority b

instance : DecidableRel entryTypeLe := fun a b =>
  inferInstanceAs (Decidable (entryPriority a ≤ entryPriority b))

instance : IsTotal String entryTypeLe :=
  ⟨fun a b => Nat.le_total (entryPriority a) (entryPriority b)⟩

instance : IsTrans String entryTypeLe :=
  ⟨fun _ _ _ => Nat.le_trans⟩

/-- `CallTreeVisualizer._determine_entry_type`: stable-sort the
candidates by priority and return the first (Python `list.sort` +
`candidates[0]`). Python's `list.sort` is a stable sort; insertion sort
is also stable, and two stable sorts of the same list under the same
total preorder produce the same list. -/
def determineEntryType (st : Store) (method : String) (info : MethodInfo) : String :=
  let candidates := determineEntryTypeCandidates st method info
  if candidates = [] then ""
  else (candidates.insertionSort entryTypeLe).headD ""

/-- One tuple of the `entry_points` list built by `list_entry_points` /
`list_entry_points_tsv`. -/
structure EntryRow where
  method : String
  callCount : Nat
  className : String
  entryType : String
  annotations : String
  visibility : String
  javadoc : String
deriving DecidableEq

/-- The Python sort key `(self._entry_priority(x[3]), x[0])` compared as
a tuple: priority first, then the method signature by code points
(Python tuple `<=` is the lexicographic order; `a <= b` on strings is
`not (b < a)`). -/
def entryRowLe (a b : EntryRow) : Prop :=
  entryPriority a.entryType < entryPriority b.entryType ∨
    (entryPriority a.entryType = entryPriority b.entryType ∧
      pyStrLt b.method a.method = false)

instance : DecidableRel entryRowLe := fun a b => by
  unfold entryRowLe
  infer_instance

/-- `all_callees`: every method that appears as a callee of some forward
edge. -/
def allCallees (st : Store) : Finset String :=
  (st.forwardCalls.flatMap (fun p => p.2.map (·.method))).toFinset

/-- The candidate loop shared verbatim by `list_entry_points` and
`list_entry_points_tsv`: keep methods never called by anyone, drop
methods whose owning type is registered in `interface_data`, apply the
strict (`is_entry_point` flag) or loose (`call_count >= min_calls`)
gate, and sort by `(priority, signature)`. -/
def listEntryPoints (st : Store) (strict : Bool) (minCalls : Nat) : List EntryRow :=
  let rows := st.methodInfo.flatMap (fun p =>
    if p.1 ∈ allCallees st then []
    else if (lookupInterface st p.2.className).isSome then []
    else
      let callCount := (lookupForward st p.1).length
      if (if strict then p.2.isEntryPoint else decide (minCalls ≤ callCount)) then
        [⟨p.1, callCount, p.2.className, determineEntryType st p.1 p.2,
          p.2.annotations, p.2.visibility, p.2.javadoc⟩]
      else [])
  rows.insertionSort entryRowLe

/-! ## The resolver as the spec words it (for comparison with the code) -/

/-- The ancestor BFS exactly as §4.3 of the spec words it, for claim C1:
breadth-first over the candidate's ancestor graph — superclass and
interfaces alike — checking every generation's owned methods for a
member-part match, tracking visited class names. Unlike the code's
`bfsImpl`, ancestors registered as interfaces are checked and expanded
like any other ancestor. -/
def specBfs (st : Store) (member : String) :
    (queue : List String) → (visited : Finset String) → Option String
  | [], _ => none
  | cur :: rest, visited =>
    if cur ∈ visited then specBfs st member rest visited
    else
      match scanOwned st.methodInfo cur member with
      | some sig => some sig
      | none => specBfs st member (rest ++ lookupClassInfo st cur) (insert cur visited)
termination_by queue visited =>
  (((allClassNames st ∪ queue.toFinset) \ visited).card, queue.length)
decreasing_by
  · have hcv : cur ∈ visited := by assumption
    rw [sdiffCons_eq_of_mem (allClassNames st) cur rest visited hcv]
    exact Prod.Lex.right _ (Nat.lt_succ_self _)
  · have hcv : cur ∉ visited := by assumption
    exact Prod.Lex.left _ _
      (sdiffCard_lt_of_not_mem (allClassNames st) cur rest (lookupClassInfo st cur)
        visited hcv (lookupClassInfo_subset_allClassNames st cur))

/-- The whole resolution step as the spec words it for claim C1: member
part, own methods of the candidate, then the ancestor BFS of `specBfs`. -/
def specResolve (st : Store) (abstractMethod implClass : String) : Option String :=
  if ¬ hasChar abstractMethod '#' then none
  else
    let member := afterFirst '#' abstractMethod
    match scanOwned st.methodInfo implClass member with
    | some sig => some sig
    | none => specBfs st member (lookupClassInfo st implClass) {implClass}

/-! ## Derived notions used to state the claims -/

/-- One generation (one round) of the BFS queue loop of
`_find_implementation_method`, used to state claim C1's level structure:
process the given generation left to right with the loop's own guards —
skip already-visited names, mark-and-skip names registered as interfaces
(their owned methods are not checked, their parents are not collected),
return the first owned member-part match — and deliver the first match
(if any), the grown visited set, and the concatenated parent lists of the
expanded members: the next generation. -/
def stepGen (st : Store) (member : String) :
    (gen : List String) → (visited : Finset String) →
      Option String × Finset String × List String
  | [], visited => (none, visited, [])
  | cur :: rest, visited =>
    if cur ∈ visited then stepGen st member rest visited
    else
      if (lookupInterface st cur).isSome then
        stepGen st member rest (insert cur visited)
      else
        match scanOwned st.methodInfo cur member with
        | some sig => (some sig, insert cur visited, [])
        | none =>
          match stepGen st member rest (insert cur visited) with
          | (r, v, ch) => (r, v, lookupClassInfo st cur ++ ch)

/-- The claim's skip condition for one exclusion-rule line: blank after
stripping, a `#` comment, not exactly two tab-separated fields, or an
unrecognized mode. -/
def lineIgnorable (line : String) : Bool :=
  let t := pyStrip line
  t == "" || t.data.head? == some '#' ||
  (match pySplitS '\t' t with
   | [_, mode] => pyUpper (pyStrip mode) != "I" && pyUpper (pyStrip mode) != "E"
   | parts => parts.length != 2)

/-- How many times the walk emitted a node line for signature `s`
(circular or not). -/
def countNode (s : String) (out : List OutItem) : Nat :=
  out.countP (fun i =>
    match i with
    | OutItem.node m _ _ => m == s
    | _ => false)

/-- All forward-edge paths of length at most `fuel` that start at `m`:
`[m]` itself plus `m` prepended to every path from each callee. Each
list element is a path in the forward graph. -/
def pathsFrom (st : Store) : Nat → String → List (List String)
  | 0, _ => []
  | fuel + 1, m =>
    [m] :: (lookupForward st m).flatMap
      (fun e => (pathsFrom st fuel e.method).map (m :: ·))

/-- The sources that have any outgoing forward or reverse adjacency:
recursion of `_print_tree_recursive` only ever descends from such a
signature, which bounds the depth any path can reach. -/
def keysFR (st : Store) : Finset String :=
  (st.forwardCalls.map (·.1)).toFinset ∪ (st.reverseCalls.map (·.1)).toFinset

/-! ## Concrete stores and inputs used by the examples -/

/-- An empty exclusion manager (no rule file loaded). -/
def em0 : ExclusionRuleManager := ⟨∅, ∅⟩

/-- A plain forward edge with no candidate annotations. -/
def edgeTo (m : String) : CallEdge := ⟨m, "No", ""⟩

/-- A method record owned by `cls` with every other field defaulted, as
the loader defaults them. -/
def mkInfo (cls : String) : MethodInfo := ⟨cls, "", "", false, false, "", "", "", "", []⟩

/-- The two-edge cycle `A -> B -> A` of spec Example 1. -/
def stCycle : Store :=
  ⟨[("A", [edgeTo "B"]), ("B", [edgeTo "A"])], [], [], [], [], []⟩

/-- The diamond `root -> A -> C`, `root -> B -> C` of spec §8. -/
def stDiamond : Store :=
  ⟨[("root", [edgeTo "A", edgeTo "B"]), ("A", [edgeTo "C"]), ("B", [edgeTo "C"])],
    [], [], [], [], []⟩

/-- The store of spec Example 2: `Foo` owns `m()` directly, `Bar` has no
own `m()` but extends `Base`, which owns `Base#m()`. -/
def stExample2 : Store :=
  ⟨[], [], [("Foo#m()", mkInfo "Foo"), ("Base#m()", mkInfo "Base")],
    [("Bar", ["Base"])], [], []⟩

/-- A store where candidate `C`'s only parent is the registered
interface `I`, which owns `I#m()` and itself extends the non-interface
class `Z` owning `Z#m()`: the spec's BFS finds `I#m()` at the first
generation, the code's BFS skips `I` outright — it neither checks `I`'s
owned methods nor enqueues `I`'s parent `Z`, so it finds nothing at
all. -/
def stIfaceOwner : Store :=
  ⟨[], [], [("I#m()", mkInfo "I"), ("Z#m()", mkInfo "Z")],
    [("C", ["I"]), ("I", ["Z"])], [], [("I", ⟨[], "", []⟩)]⟩

/-- A store whose candidate `D` has the parents `I` (a registered
interface owning `I#m()`) and `P` (a plain class owning nothing whose
parent `Q` owns `Q#m()`): generation one is `[I, P]`, with `I` skipped
and `P` matchless, and generation two is `P`'s parents `[Q]`, where the
match is found. -/
def stTwoGen : Store :=
  ⟨[], [], [("I#m()", mkInfo "I"), ("Q#m()", mkInfo "Q")],
    [("D", ["I", "P"]), ("P", ["Q"])], [], [("I", ⟨[], "", []⟩)]⟩

/-- The empty store. -/
def stEmpty : Store := ⟨[], [], [], [], [], []⟩

/-- The empty helper data set. -/
def dEmpty : HData := ⟨[], [], []⟩

/-- A method that matches both the main-method heuristic (static, owning
class name contains "main") and a test annotation, and whose
pre-analyzed `entry_type` is `Test` (spec Example 4). -/
def infoMainTest : MethodInfo :=
  ⟨"com.example.MainApp", "", "", true, false, "Test", "Test", "", "", []⟩

/-- A store whose only method is owned by the registered interface `I`
and carries the raw entry-point flag, and is called by nobody. -/
def stIfaceEntry : Store :=
  ⟨[], [], [("I#m()", ⟨"I", "", "public", false, true, "", "", "", "", []⟩)],
    [], [], [("I", ⟨[], "", []⟩)]⟩

/-! ## Support lemmas -/

theorem option_any_false (o : Option String) :
    (o.any fun _ => false) = false := by cases o <;> rfl

theorem shouldInclude_em0 (sig : String) : shouldInclude em0 sig = true := by
  simp [shouldInclude, em0, option_any_false]

theorem shouldExcludeChildren_em0 (sig : String) :
    shouldExcludeChildren em0 sig = false := by
  simp [shouldExcludeChildren, em0, option_any_false]

/-! ## Claim theorems -/

/-- C5: on the concrete graph with forward edges `A -> B` and `B -> A`,
forward traversal from root `A` with `maxDepth = 10` emits exactly `A` at
depth 0, `B` at depth 1, and `A` at depth 2 tagged circular, and then
stops. -/
theorem forward_cycle_example :
    (printForwardTree stCycle em0 false true "A" 10).1 =
      [OutItem.node "A" 0 false, OutItem.node "B" 1 false,
        OutItem.node "A" 2 true] := by
  simp +decide [printForwardTree, printTreeRec.eq_def, goCallees.eq_def,
    implBlockFor.eq_def, shouldInclude_em0, shouldExcludeChildren_em0,
    stCycle, edgeTo, lookupForward, lookupA, collectCreatedInstances,
    lookupMethod, lookupClassData]

/-- C3: for every accumulated-instance set `A` and non-empty candidate
list `C`, the instance filter returns exactly the members of `C` that lie
in `A` when there are any, returns all of `C` unchanged otherwise, and
never returns an empty list. -/
theorem instance_filter_all_or_nothing (A : Finset String) (C : List String)
    (hC : C ≠ []) :
    (C.filter (fun i => decide (i ∈ A)) ≠ [] →
      filterImplementations A C = C.filter (fun i => decide (i ∈ A))) ∧
    (C.filter (fun i => decide (i ∈ A)) = [] →
      filterImplementations A C = C) ∧
    filterImplementations A C ≠ [] := by
  unfold filterImplementations
  by_cases hA : A = ∅
  · subst hA
    have hf : C.filter (fun i => decide (i ∈ (∅ : Finset String))) = [] := by
      simp
    rw [if_pos (Or.inr rfl)]
    exact ⟨fun h => absurd hf h, fun _ => rfl, hC⟩
  · rw [if_neg (by push_neg; exact ⟨hC, hA⟩)]
    dsimp only
    by_cases hf : C.filter (fun i => decide (i ∈ A)) = []
    · rw [if_neg (by simpa using hf)]
      exact ⟨fun h => absurd hf h, fun _ => rfl, hC⟩
    · rw [if_pos (by simpa using hf)]
      exact ⟨fun _ => rfl, fun h => absurd h hf, hf⟩

/-- Witness for C3 at `A = {"X"}`, `C = ["X", "Y"]`: the filter keeps
exactly `"X"` and is non-empty. -/
theorem instance_filter_all_or_nothing_witness :
    filterImplementations (insert "X" ∅) ["X", "Y"] = ["X"] ∧
    filterImplementations (insert "X" ∅) ["X", "Y"] ≠ [] := by
  have h := instance_filter_all_or_nothing (insert "X" (∅ : Finset String))
    ["X", "Y"] (by decide)
  refine ⟨?_, h.2.2⟩
  rw [h.1 (by decide)]
  decide

theorem processLine_ignorable (em : ExclusionRuleManager) (line : String)
    (h : lineIgnorable line = true) : processLine em line = em := by
  unfold lineIgnorable at h
  unfold processLine
  by_cases h1 : pyStrip line = ""
  · rw [if_pos h1]
  · rw [if_neg h1]
    by_cases h2 : (pyStrip line).data.head? = some '#'
    · rw [if_pos h2]
    · rw [if_neg h2]
      simp only [beq_iff_eq, h1, h2, Bool.or_eq_true, decide_eq_true_eq,
        false_or] at h
      rcases hsp : pySplitS '\t' (pyStrip line) with _ | ⟨a, _ | ⟨b, l⟩⟩
      · rfl
      · rfl
      · cases l with
        | nil =>
          rw [hsp] at h
          simp only [Bool.and_eq_true, bne_iff_ne] at h
          dsimp only
          rw [if_neg h.1, if_neg h.2]
        | cons c l2 => rfl

/-- C9: loading exclusion rules never aborts: a blank line, a `#` comment
line, a line without exactly two tab-separated fields, or a line with an
unrecognized mode leaves both rule sets exactly as they were, and the
remaining lines are still processed as if the bad line were absent. -/
theorem exclusion_loading_skips_malformed (em : ExclusionRuleManager)
    (line : String) (pre post : List String) (h : lineIgnorable line = true) :
    processLine em line = em ∧
    loadRules em (pre ++ line :: post) = loadRules em (pre ++ post) := by
  refine ⟨processLine_ignorable em line h, ?_⟩
  unfold loadRules
  rw [List.foldl_append, List.foldl_append, List.foldl_cons,
    processLine_ignorable _ line h]

/-- Witness for C9: the tab-less line `"abc"` is skipped between two
well-formed lines. -/
theorem exclusion_loading_skips_malformed_witness :
    lineIgnorable "abc" = true ∧ processLine em0 "abc" = em0 ∧
    loadRules em0 ("x\tE" :: "abc" :: ["z\tI"]) =
      loadRules em0 ("x\tE" :: ["z\tI"]) := by
  have h := exclusion_loading_skips_malformed em0 "abc" ["x\tE"] ["z\tI"]
    (by decide)
  exact ⟨by decide, h.1, h.2⟩

theorem pySplit_ne_nil (sep : Char) (l : List Char) : pySplit sep l ≠ [] := by
  induction l with
  | nil => simp [pySplit]
  | cons c rest ih =>
    simp only [pySplit]
    by_cases h : c = sep
    · simp [h]
    · rw [if_neg h]
      rcases hrest : pySplit sep rest with _ | ⟨s, ss⟩
      · simp
      · simp

theorem pySplit_sep_free (sep : Char) (l : List Char) :
    ∀ seg ∈ pySplit sep l, sep ∉ seg := by
  induction l with
  | nil =>
    intro seg hseg
    simp [pySplit] at hseg
    simp [hseg]
  | cons c rest ih =>
    intro seg hseg
    simp only [pySplit] at hseg
    by_cases h : c = sep
    · rw [if_pos h] at hseg
      rcases List.mem_cons.mp hseg with rfl | hseg
      · simp
      · exact ih seg hseg
    · rw [if_neg h] at hseg
      rcases hrest : pySplit sep rest with _ | ⟨s, ss⟩
      · exact absurd hrest (pySplit_ne_nil sep rest)
      · rw [hrest] at hseg
        rcases List.mem_cons.mp hseg with rfl | hseg
        · intro hmem
          rcases List.mem_cons.mp hmem with rfl | hmem
          · exact h rfl
          · exact ih s (by rw [hrest]; exact List.mem_cons_self s ss) hmem
        · exact ih seg (by rw [hrest]; exact List.mem_cons_of_mem s hseg)

theorem pySplit_append (sep : Char) (l1 l2 : List Char) (h : sep ∉ l1) :
    pySplit sep (l1 ++ sep :: l2) = l1 :: pySplit sep l2 := by
  induction l1 with
  | nil => simp [pySplit]
  | cons c cs ih =>
    have hc : c ≠ sep := fun hcs => h (hcs ▸ List.mem_cons_self c cs)
    have hcs : sep ∉ cs := fun hm => h (List.mem_cons_of_mem c hm)
    rw [List.cons_append]
    simp only [pySplit]
    rw [if_neg hc, ih hcs]

theorem concat_hash_data (C m : String) :
    (C ++ "#" ++ m).data = C.data ++ '#' :: m.data := by
  simp [String.data_append]

theorem hasChar_concat_hash (C m : String) :
    hasChar (C ++ "#" ++ m) '#' = true := by
  unfold hasChar
  rw [concat_hash_data]
  simp

theorem extractClassName_concat (C m : String) (hC : hasChar C '#' = false) :
    extractClassName (C ++ "#" ++ m) = some C := by
  have hnotin : '#' ∉ C.data := by simpa [hasChar] using hC
  unfold extractClassName
  rw [if_pos (hasChar_concat_hash C m)]
  unfold pySplitS
  rw [concat_hash_data, pySplit_append '#' C.data m.data hnotin]
  rfl

theorem hashFree_ne_concat (x C m : String) (hx : '#' ∉ x.data) :
    x ≠ C ++ "#" ++ m := by
  intro he
  apply hx
  rw [he, concat_hash_data]
  exact List.mem_append_right _ (List.mem_cons_self _ _)

theorem extractClassName_hashFree (sig c : String)
    (h : extractClassName sig = some c) : '#' ∉ c.data := by
  unfold extractClassName at h
  split at h
  · rcases hsp : pySplit '#' sig.data with _ | ⟨s, ss⟩
    · exact absurd hsp (pySplit_ne_nil '#' sig.data)
    · have : c = ⟨s⟩ := by
        have := h
        unfold pySplitS at this
        rw [hsp] at this
        simpa using this.symm
      subst this
      exact pySplit_sep_free '#' sig.data s (by rw [hsp]; exact List.mem_cons_self _ _)
  · cases h

theorem extractMethodPart_hashFree (sig c : String)
    (h : extractMethodPart sig = some c) : '#' ∉ c.data := by
  unfold extractMethodPart at h
  split at h
  · have hc : c = (pySplitS '#' sig).getD 1 "" := by
      simpa using h.symm
    cases hsp : pySplitS '#' sig with
    | nil =>
      rw [hsp] at hc
      simp [List.getD] at hc
      simp [hc]
    | cons s0 rest0 =>
      cases rest0 with
      | nil =>
        rw [hsp] at hc
        simp [List.getD] at hc
        simp [hc]
      | cons s1 ss =>
        rw [hsp] at hc
        simp [List.getD] at hc
        subst hc
        have hs1 : c ∈ pySplitS '#' sig := by
          rw [hsp]
          exact List.mem_cons_of_mem _ (List.mem_cons_self _ _)
        unfold pySplitS at hs1
        rcases List.mem_map.mp hs1 with ⟨seg, hseg, rfl⟩
        exact pySplit_sep_free '#' sig.data seg hseg
  · cases h

/-- C8: with `E` an arbitrary cut set and `S` any further suppress rules,
for a class name `C` (no `#`, non-empty) and any member part `m`: the
class rule alone suppresses `C#m`, the method rule alone suppresses
`C#m`, and adding the method rule `C#m` to a suppress set that already
holds the class rule `C` changes the inclusion verdict of no signature —
the suppressed set is the same either way, so the class rule subsumes
the method rule. -/
theorem class_rule_subsumes_method_rule (S E : Finset String) (C m : String)
    (hC : hasChar C '#' = false) (hCne : C ≠ "") :
    shouldInclude ⟨insert C S, E⟩ (C ++ "#" ++ m) = false ∧
    shouldInclude ⟨insert (C ++ "#" ++ m) S, E⟩ (C ++ "#" ++ m) = false ∧
    (∀ sig, shouldInclude ⟨insert (C ++ "#" ++ m) (insert C S), E⟩ sig =
      shouldInclude ⟨insert C S, E⟩ sig) := by
  refine ⟨?_, ?_, ?_⟩
  · unfold shouldInclude
    by_cases h0 : (C ++ "#" ++ m) ∈ insert C S
    · rw [if_pos h0]
    · rw [if_neg h0, extractClassName_concat C m hC,
        if_pos (by simp [hCne, Finset.mem_insert_self])]
  · unfold shouldInclude
    rw [if_pos (Finset.mem_insert_self _ _)]
  · intro sig
    unfold shouldInclude
    by_cases h1 : sig ∈ insert C S
    · rw [if_pos (Finset.mem_insert_of_mem h1), if_pos h1]
    · by_cases h2 : sig = C ++ "#" ++ m
      · subst h2
        rw [if_pos (Finset.mem_insert_self _ _), if_neg h1,
          extractClassName_concat C m hC,
          if_pos (by simp [hCne, Finset.mem_insert_self])]
      · have hbig : sig ∉ insert (C ++ "#" ++ m) (insert C S) := by
          rw [Finset.mem_insert]
          push_neg
          exact ⟨h2, h1⟩
        rw [if_neg hbig, if_neg h1]
        have hcls : ((extractClassName sig).any
              (fun c => decide (c ≠ "") &&
                decide (c ∈ insert (C ++ "#" ++ m) (insert C S)))) =
            ((extractClassName sig).any
              (fun c => decide (c ≠ "") && decide (c ∈ insert C S))) := by
          cases hec : extractClassName sig with
          | none => rfl
          | some c =>
            have hcne : c ≠ C ++ "#" ++ m :=
              hashFree_ne_concat c C m (extractClassName_hashFree sig c hec)
            simp [Finset.mem_insert, hcne]
        have hmp : ((extractMethodPart sig).any
              (fun c => decide (c ≠ "") &&
                decide (c ∈ insert (C ++ "#" ++ m) (insert C S)))) =
            ((extractMethodPart sig).any
              (fun c => decide (c ≠ "") && decide (c ∈ insert C S))) := by
          cases hec : extractMethodPart sig with
          | none => rfl
          | some c =>
            have hcne : c ≠ C ++ "#" ++ m :=
              hashFree_ne_concat c C m (extractMethodPart_hashFree sig c hec)
            simp [Finset.mem_insert, hcne]
        rw [hcls, hmp]

/-- Witness for C8 at `C = "com.x.Y"`, `m = "z()"`: the class rule alone
suppresses `com.x.Y#z()`, and adding the method rule on top of the class
rule does not change the verdict of `com.x.Y#w()`. -/
theorem class_rule_subsumes_method_rule_witness :
    shouldInclude ⟨insert "com.x.Y" ∅, ∅⟩ "com.x.Y#z()" = false ∧
    shouldInclude ⟨insert "com.x.Y#z()" (insert "com.x.Y" ∅), ∅⟩ "com.x.Y#w()" =
      shouldInclude ⟨insert "com.x.Y" ∅, ∅⟩ "com.x.Y#w()" := by
  have h := class_rule_subsumes_method_rule ∅ ∅ "com.x.Y" "z()"
    (by decide) (by decide)
  exact ⟨h.1, h.2.2 "com.x.Y#w()"⟩

theorem scanOwned_some (mi : List (String × MethodInfo)) (cls member sig : String)
    (h : scanOwned mi cls member = some sig) :
    ∃ info, (sig, info) ∈ mi ∧ info.className = cls := by
  unfold scanOwned at h
  cases hfind : mi.find? (fun p =>
      p.2.className == cls && hasChar p.1 '#' && afterFirst '#' p.1 == member) with
  | none => rw [hfind] at h; cases h
  | some p =>
    rw [hfind] at h
    have hmem := List.mem_of_find?_eq_some hfind
    have hpred := List.find?_some hfind
    simp only [Bool.and_eq_true, beq_iff_eq] at hpred
    simp at h
    exact ⟨p.2, by rw [← h]; exact hmem, hpred.1.1⟩

theorem scanParents_some (st : Store) (member : String) :
    ∀ (ps : List String) (sig : String), scanParents st member ps = some sig →
      ∃ p ∈ ps, lookupInterface st p = none ∧
        scanOwned st.methodInfo p member = some sig := by
  intro ps
  induction ps with
  | nil => intro sig h; cases h
  | cons p rest ih =>
    intro sig h
    unfold scanParents at h
    split at h
    · obtain ⟨q, hq, hrest⟩ := ih sig h
      exact ⟨q, List.mem_cons_of_mem _ hq, hrest⟩
    · split at h
      · rename_i hscan
        refine ⟨p, List.mem_cons_self _ _, ?_, by rw [hscan, h]⟩
        exact Option.not_isSome_iff_eq_none.mp (by assumption)
      · obtain ⟨q, hq, hrest⟩ := ih sig h
        exact ⟨q, List.mem_cons_of_mem _ hq, hrest⟩

theorem bfsImpl_some (st : Store) (member : String) :
    ∀ (queue : List String) (visited : Finset String) (sig : String),
      bfsImpl st member queue visited = some sig →
      ∃ cls, lookupInterface st cls = none ∧
        scanOwned st.methodInfo cls member = some sig := by
  intro queue visited
  induction queue, visited using bfsImpl.induct st member with
  | case1 visited =>
    intro sig h
    rw [bfsImpl.eq_def] at h
    simp at h
  | case2 cur rest visited hvis ih =>
    intro sig h
    rw [bfsImpl.eq_def] at h
    dsimp only at h
    rw [if_pos hvis] at h
    exact ih sig h
  | case3 cur rest visited hvis hif ih =>
    intro sig h
    rw [bfsImpl.eq_def] at h
    dsimp only at h
    rw [if_neg hvis, if_pos hif] at h
    exact ih sig h
  | case4 cur rest visited hvis hif sig0 hscan =>
    intro sig h
    rw [bfsImpl.eq_def] at h
    dsimp only at h
    rw [if_neg hvis, if_neg hif, hscan] at h
    dsimp only at h
    refine ⟨cur, ?_, by rw [hscan, h]⟩
    exact Option.not_isSome_iff_eq_none.mp hif
  | case5 cur rest visited hvis hif hscan ih =>
    intro sig h
    rw [bfsImpl.eq_def] at h
    dsimp only at h
    rw [if_neg hvis, if_neg hif, hscan] at h
    exact ih sig h

theorem bfsImpl_stepGen (st : Store) (member : String) :
    ∀ (gen extra : List String) (visited : Finset String),
      bfsImpl st member (gen ++ extra) visited =
        (match stepGen st member gen visited with
         | (some sig, _, _) => some sig
         | (none, v, ch) => bfsImpl st member (extra ++ ch) v) := by
  intro gen
  induction gen with
  | nil =>
    intro extra visited
    simp [stepGen]
  | cons cur rest ih =>
    intro extra visited
    rw [List.cons_append, bfsImpl.eq_def]
    dsimp only
    simp only [stepGen]
    by_cases hv : cur ∈ visited
    · rw [if_pos hv, if_pos hv]
      exact ih extra visited
    · rw [if_neg hv, if_neg hv]
      by_cases hif : (lookupInterface st cur).isSome
      · rw [if_pos hif, if_pos hif]
        exact ih extra (insert cur visited)
      · rw [if_neg hif, if_neg hif]
        cases hscan : scanOwned st.methodInfo cur member with
        | some sig => dsimp only
        | none =>
          dsimp only
          rw [List.append_assoc,
            ih (extra ++ lookupClassInfo st cur) (insert cur visited)]
          cases hr : stepGen st member rest (insert cur visited) with
          | mk r vch =>
            cases vch with
            | mk v ch =>
              dsimp only
              cases r with
              | none =>
                dsimp only
                rw [List.append_assoc]
              | some sig => rfl

theorem stepGen_some (st : Store) (member : String) :
    ∀ (gen : List String) (visited v : Finset String) (sig : String)
      (ch : List String),
      stepGen st member gen visited = (some sig, v, ch) →
      ∃ cls, cls ∈ gen ∧ cls ∉ visited ∧ lookupInterface st cls = none ∧
        scanOwned st.methodInfo cls member = some sig := by
  intro gen
  induction gen with
  | nil =>
    intro visited v sig ch h
    simp [stepGen] at h
  | cons cur rest ih =>
    intro visited v sig ch h
    simp only [stepGen] at h
    by_cases hv : cur ∈ visited
    · rw [if_pos hv] at h
      obtain ⟨cls, hmem, hnv, hni, hsc⟩ := ih _ _ _ _ h
      exact ⟨cls, List.mem_cons_of_mem _ hmem, hnv, hni, hsc⟩
    · rw [if_neg hv] at h
      by_cases hif : (lookupInterface st cur).isSome
      · rw [if_pos hif] at h
        obtain ⟨cls, hmem, hnv, hni, hsc⟩ := ih _ _ _ _ h
        exact ⟨cls, List.mem_cons_of_mem _ hmem,
          fun hc => hnv (Finset.mem_insert_of_mem hc), hni, hsc⟩
      · rw [if_neg hif] at h
        cases hscan : scanOwned st.methodInfo cur member with
        | some sig0 =>
          rw [hscan] at h
          dsimp only at h
          simp only [Prod.mk.injEq, Option.some.injEq] at h
          exact ⟨cur, List.mem_cons_self _ _, hv,
            Option.not_isSome_iff_eq_none.mp hif, by rw [hscan, h.1]⟩
        | none =>
          rw [hscan] at h
          dsimp only at h
          cases hr : stepGen st member rest (insert cur visited) with
          | mk r vch =>
            cases vch with
            | mk v2 ch2 =>
              rw [hr] at h
              dsimp only at h
              simp only [Prod.mk.injEq] at h
              rw [h.1] at hr
              obtain ⟨cls, hmem, hnv, hni, hsc⟩ := ih _ _ _ _ hr
              exact ⟨cls, List.mem_cons_of_mem _ hmem,
                fun hc => hnv (Finset.mem_insert_of_mem hc), hni, hsc⟩

theorem stepGen_children (st : Store) (member : String) :
    ∀ (gen : List String) (visited v : Finset String) (r : Option String)
      (ch : List String) (x : String),
      stepGen st member gen visited = (r, v, ch) → x ∈ ch →
      ∃ cls, cls ∈ gen ∧ cls ∉ visited ∧ lookupInterface st cls = none ∧
        x ∈ lookupClassInfo st cls := by
  intro gen
  induction gen with
  | nil =>
    intro visited v r ch x h hx
    simp only [stepGen, Prod.mk.injEq] at h
    rw [← h.2.2] at hx
    cases hx
  | cons cur rest ih =>
    intro visited v r ch x h hx
    simp only [stepGen] at h
    by_cases hv : cur ∈ visited
    · rw [if_pos hv] at h
      obtain ⟨cls, hmem, hnv, hni, hin⟩ := ih _ _ _ _ _ h hx
      exact ⟨cls, List.mem_cons_of_mem _ hmem, hnv, hni, hin⟩
    · rw [if_neg hv] at h
      by_cases hif : (lookupInterface st cur).isSome
      · rw [if_pos hif] at h
        obtain ⟨cls, hmem, hnv, hni, hin⟩ := ih _ _ _ _ _ h hx
        exact ⟨cls, List.mem_cons_of_mem _ hmem,
          fun hc => hnv (Finset.mem_insert_of_mem hc), hni, hin⟩
      · rw [if_neg hif] at h
        cases hscan : scanOwned st.methodInfo cur member with
        | some sig0 =>
          rw [hscan] at h
          dsimp only at h
          simp only [Prod.mk.injEq] at h
          rw [← h.2.2] at hx
          cases hx
        | none =>
          rw [hscan] at h
          dsimp only at h
          cases hr : stepGen st member rest (insert cur visited) with
          | mk r2 vch =>
            cases vch with
            | mk v2 ch2 =>
              rw [hr] at h
              dsimp only at h
              simp only [Prod.mk.injEq] at h
              rw [← h.2.2] at hx
              rcases List.mem_append.mp hx with hx1 | hx2
              · exact ⟨cur, List.mem_cons_self _ _, hv,
                  Option.not_isSome_iff_eq_none.mp hif, hx1⟩
              · obtain ⟨cls, hmem, hnv, hni, hin⟩ := ih _ _ _ _ _ hr hx2
                exact ⟨cls, List.mem_cons_of_mem _ hmem,
                  fun hc => hnv (Finset.mem_insert_of_mem hc), hni, hin⟩

/-- C1 (amended): the Example 2 resolutions hold (`Foo` resolves to
`Foo#m()`, `Bar` inherits `Base#m()`); whenever the candidate class owns
no member-part match, any method the resolver returns is owned by a
class with no interface-data entry; and the breadth-first phase works
one generation per queue level: a round over the current generation that
finds a match returns it before any deeper class is examined, and the
match is owned by an unvisited non-interface member of that generation;
a round that finds none continues the search on exactly the children it
collected, every one of which is a recorded parent of an unvisited
non-interface member of the generation — so an interface ancestor's
owned methods are never checked and its parents are never enqueued. -/
theorem resolver_skips_interface_ancestors :
    findImplementationMethod stExample2 "I#m()" "Foo" = some "Foo#m()" ∧
    findImplementationMethod stExample2 "I#m()" "Bar" = some "Base#m()" ∧
    (∀ (st : Store) (abstractMethod cand sig : String),
      scanOwned st.methodInfo cand (afterFirst '#' abstractMethod) = none →
      findImplementationMethod st abstractMethod cand = some sig →
      ∃ info, (sig, info) ∈ st.methodInfo ∧
        lookupInterface st info.className = none) ∧
    (∀ (st : Store) (member : String) (gen : List String)
        (visited v : Finset String) (sig : String) (ch : List String),
      stepGen st member gen visited = (some sig, v, ch) →
      bfsImpl st member gen visited = some sig ∧
      ∃ cls, cls ∈ gen ∧ cls ∉ visited ∧ lookupInterface st cls = none ∧
        scanOwned st.methodInfo cls member = some sig) ∧
    (∀ (st : Store) (member : String) (gen : List String)
        (visited v : Finset String) (ch : List String),
      stepGen st member gen visited = (none, v, ch) →
      bfsImpl st member gen visited = bfsImpl st member ch v ∧
      ∀ x ∈ ch, ∃ cls, cls ∈ gen ∧ cls ∉ visited ∧
        lookupInterface st cls = none ∧ x ∈ lookupClassInfo st cls) := by
  refine ⟨by decide, by decide, ?_, ?_, ?_⟩
  rotate_left
  · intro st member gen visited v sig ch hstep
    refine ⟨?_, stepGen_some st member gen visited v sig ch hstep⟩
    have h := bfsImpl_stepGen st member gen [] visited
    rw [List.append_nil, hstep] at h
    exact h
  · intro st member gen visited v ch hstep
    refine ⟨?_, fun x hx =>
      stepGen_children st member gen visited v none ch x hstep hx⟩
    have h := bfsImpl_stepGen st member gen [] visited
    rw [List.append_nil, hstep] at h
    dsimp only at h
    rw [List.nil_append] at h
    exact h
  intro st abstractMethod cand sig hscan h
  unfold findImplementationMethod at h
  split at h
  · cases h
  · dsimp only at h
    rw [hscan] at h
    dsimp only at h
    cases hsp : scanParents st (afterFirst '#' abstractMethod)
        (lookupClassInfo st cand) with
    | some sig2 =>
      rw [hsp] at h
      dsimp only at h
      obtain ⟨p, _, hiface, howned⟩ :=
        scanParents_some st (afterFirst '#' abstractMethod) _ sig2 hsp
      obtain ⟨info, hmem, hcls⟩ := scanOwned_some _ _ _ _ howned
      simp only [Option.some_inj] at h
      subst h
      exact ⟨info, hmem, by rw [hcls]; exact hiface⟩
    | none =>
      rw [hsp] at h
      dsimp only at h
      obtain ⟨cls, hiface, howned⟩ := bfsImpl_some st _ _ _ sig h
      obtain ⟨info, hmem, hcls⟩ := scanOwned_some _ _ _ _ howned
      exact ⟨info, hmem, by rw [hcls]; exact hiface⟩

/-- Witness for C1 (amended), on `stTwoGen` (candidate `D`, generation
one `[I, P]` with interface `I` skipped, generation two `[Q]` where
`Q#m()` is found): the resolution `Q#m()` comes from a non-interface
owner; the matchless first round hands the search exactly the children
`[Q]`, each a parent of the unvisited non-interface member `P`; and the
second round's match `Q#m()` is returned by the queue search and owned
by the unvisited non-interface generation member `Q`. -/
theorem resolver_skips_interface_ancestors_witness :
    (∃ info, ("Q#m()", info) ∈ stTwoGen.methodInfo ∧
      lookupInterface stTwoGen info.className = none) ∧
    (bfsImpl stTwoGen "m()" ["I", "P"] {"D"} =
      bfsImpl stTwoGen "m()" ["Q"] (insert "P" (insert "I" {"D"})) ∧
      ∀ x ∈ ["Q"], ∃ cls, cls ∈ ["I", "P"] ∧ cls ∉ ({"D"} : Finset String) ∧
        lookupInterface stTwoGen cls = none ∧
        x ∈ lookupClassInfo stTwoGen cls) ∧
    (bfsImpl stTwoGen "m()" ["Q"] (insert "P" (insert "I" {"D"})) =
      some "Q#m()" ∧
      ∃ cls, cls ∈ ["Q"] ∧
        cls ∉ (insert "P" (insert "I" ({"D"} : Finset String))) ∧
        lookupInterface stTwoGen cls = none ∧
        scanOwned stTwoGen.methodInfo cls "m()" = some "Q#m()") := by
  refine ⟨?_, ?_, ?_⟩
  · exact resolver_skips_interface_ancestors.2.2.1 stTwoGen "I#m()" "D" "Q#m()"
      (by decide)
      (by simp +decide [findImplementationMethod, bfsImpl.eq_def, scanOwned,
            scanParents, lookupClassInfo, lookupInterface, lookupA, stTwoGen,
            mkInfo, afterFirst, hasChar])
  · exact resolver_skips_interface_ancestors.2.2.2.2 stTwoGen "m()" ["I", "P"]
      {"D"} (insert "P" (insert "I" {"D"})) ["Q"] (by decide)
  · exact resolver_skips_interface_ancestors.2.2.2.1 stTwoGen "m()" ["Q"]
      (insert "P" (insert "I" {"D"}))
      (insert "Q" (insert "P" (insert "I" {"D"}))) "Q#m()" [] (by decide)

/-- Counterexample for C1 as stated: candidate `C`'s only parent is the
registered interface `I`, which owns `I#m()` and itself extends the
non-interface class `Z` owning `Z#m()`. The breadth-first search the
spec describes (superclass and interfaces alike, every generation's
owned methods checked) finds `I#m()`, but the code returns nothing: it
neither checks `I`'s owned methods nor ever reaches `Z`, because `I`'s
recorded parent list is never expanded. -/
theorem resolver_skips_interface_ancestors_counterexample :
    findImplementationMethod stIfaceOwner "I#m()" "C" = none ∧
    specResolve stIfaceOwner "I#m()" "C" = some "I#m()" ∧
    lookupInterface stIfaceOwner "Z" = none ∧
    scanOwned stIfaceOwner.methodInfo "Z" "m()" = some "Z#m()" ∧
    lookupClassInfo stIfaceOwner "I" = ["Z"] := by
  refine ⟨?_, ?_, by decide, by decide, by decide⟩
  · simp +decide [findImplementationMethod, bfsImpl.eq_def, scanOwned,
      scanParents, lookupClassInfo, lookupInterface, lookupA, stIfaceOwner,
      mkInfo, afterFirst, hasChar]
  · simp +decide [specResolve, specBfs.eq_def, scanOwned,
      lookupClassInfo, lookupInterface, lookupA, stIfaceOwner,
      mkInfo, afterFirst, hasChar]

/-- C6: a target with zero recorded callers whose ancestor search finds
no same-member-part declaration is returned as the sole terminal
endpoint, both by the visualizer's reverse walk (provided the target is
not suppressed) and by the batch helper's endpoint search. -/
theorem reverse_zero_callers_terminal (st : Store) (em : ExclusionRuleManager)
    (d : HData) (target : String) (maxDepth : Nat)
    (hinc : shouldInclude em target = true)
    (hcal : lookupReverse st target = [])
    (hpar : findParentMethods st target = [])
    (hcalH : hLookupReverse d target = [])
    (hparH : hFindParentMethods d target = []) :
    (printReverseTree st em true target maxDepth).2.1 = {target} ∧
    findFinalEndpoints d target maxDepth true = {target} := by
  constructor
  · unfold printReverseTree
    rw [printRevRec.eq_def]
    simp [hinc, hcal, hpar]
  · unfold findFinalEndpoints
    rw [hFindRec.eq_def]
    simp [hcalH, hparH]

/-- Witness for C6: the method `X#t()` in the empty store is its own
sole terminal endpoint in both implementations. -/
theorem reverse_zero_callers_terminal_witness :
    (printReverseTree stEmpty em0 true "X#t()" 50).2.1 = {"X#t()"} ∧
    findFinalEndpoints dEmpty "X#t()" 50 true = {"X#t()"} :=
  reverse_zero_callers_terminal stEmpty em0 dEmpty "X#t()" 50
    (by decide) (by decide) (by decide) (by decide) (by decide)

/-- C7: the classifier's verdict is a matched category of minimal
priority — whenever the verdict is non-empty it is one of the assembled
candidate categories and no candidate has a strictly smaller priority
number — and, concretely, a method matching both the main-method
heuristic and a test annotation (with pre-analyzed type `Test`) is
classified `Main Method`: priority 1 beats `Test Method`'s 11. -/
theorem entry_type_priority_wins :
    (∀ (st : Store) (method : String) (info : MethodInfo),
      determineEntryType st method info = "" ∨
      (determineEntryType st method info ∈
          determineEntryTypeCandidates st method info ∧
        ∀ c ∈ determineEntryTypeCandidates st method info,
          entryPriority (determineEntryType st method info) ≤ entryPriority c)) ∧
    determineEntryType stEmpty "com.example.MainApp#run()" infoMainTest =
      "Main Method" := by
  constructor
  · intro st method info
    unfold determineEntryType
    by_cases hc : determineEntryTypeCandidates st method info = []
    · rw [if_pos hc]
      exact Or.inl rfl
    · rw [if_neg hc]
      right
      have hperm := List.perm_insertionSort entryTypeLe
        (determineEntryTypeCandidates st method info)
      cases hs : (determineEntryTypeCandidates st method info).insertionSort
          entryTypeLe with
      | nil =>
        rw [hs] at hperm
        exact absurd hperm.symm.eq_nil hc
      | cons h t =>
        rw [hs] at hperm
        constructor
        · simpa using hperm.mem_iff.mp (List.mem_cons_self h t)
        · intro c hcmem
          have hsorted := List.sorted_insertionSort entryTypeLe
            (determineEntryTypeCandidates st method info)
          rw [hs] at hsorted
          have hcs : c ∈ h :: t := hperm.mem_iff.mpr hcmem
          simp only [List.headD_cons]
          rcases List.mem_cons.mp hcs with rfl | hct
          · exact le_refl _
          · exact (List.sorted_cons.mp hsorted).1 c hct
  · decide

/-- Witness for C7: on the concrete main-plus-test method, the verdict
`Main Method` is among the candidates and its priority is at most that
of the also-matching `Test Method`. -/
theorem entry_type_priority_wins_witness :
    determineEntryType stEmpty "com.example.MainApp#run()" infoMainTest =
      "Main Method" ∧
    entryPriority (determineEntryType stEmpty "com.example.MainApp#run()"
      infoMainTest) ≤ entryPriority "Test Method" := by
  refine ⟨entry_type_priority_wins.2, ?_⟩
  rcases entry_type_priority_wins.1 stEmpty "com.example.MainApp#run()"
      infoMainTest with h | ⟨_, hmin⟩
  · rw [entry_type_priority_wins.2] at h
    exact absurd h (by decide)
  · exact hmin "Test Method" (by decide)

theorem assoc_nodup_unique {α : Type} (l : List (String × α))
    (h : (l.map (·.1)).Nodup) (k : String) (v1 v2 : α)
    (h1 : (k, v1) ∈ l) (h2 : (k, v2) ∈ l) : v1 = v2 := by
  induction l with
  | nil => cases h1
  | cons p t ih =>
    rw [List.map_cons, List.nodup_cons] at h
    rcases List.mem_cons.mp h1 with he1 | h1t
    · rcases List.mem_cons.mp h2 with he2 | h2t
      · rw [← he1] at he2
        exact (Prod.mk.injEq _ _ _ _ ▸ he2).2.symm
      · exfalso
        apply h.1
        rw [← he1]
        exact List.mem_map.mpr ⟨(k, v2), h2t, rfl⟩
    · rcases List.mem_cons.mp h2 with he2 | h2t
      · exfalso
        apply h.1
        rw [← he2]
        exact List.mem_map.mpr ⟨(k, v1), h1t, rfl⟩
      · exact ih h.2 h1t h2t

theorem listEntryPoints_rows (st : Store) (strict : Bool) (minCalls : Nat) :
    ∀ row ∈ listEntryPoints st strict minCalls,
      ∃ p ∈ st.methodInfo, row.method = p.1 ∧ row.className = p.2.className ∧
        lookupInterface st p.2.className = none := by
  intro row hrow
  unfold listEntryPoints at hrow
  have hmem := (List.perm_insertionSort entryRowLe _).mem_iff.mp hrow
  rw [List.mem_flatMap] at hmem
  obtain ⟨p, hp, hrowp⟩ := hmem
  split at hrowp
  · cases hrowp
  · split at hrowp
    · cases hrowp
    · dsimp only at hrowp
      split at hrowp
      · split at hrowp
        · rw [List.mem_singleton] at hrowp
          subst hrowp
          refine ⟨p, hp, rfl, rfl, ?_⟩
          exact Option.not_isSome_iff_eq_none.mp (by assumption)
        · cases hrowp
      · split at hrowp
        · rw [List.mem_singleton] at hrowp
          subst hrowp
          refine ⟨p, hp, rfl, rfl, ?_⟩
          exact Option.not_isSome_iff_eq_none.mp (by assumption)
        · cases hrowp

/-- C10: the entry-point listing never reports a method owned by a
registered interface: every reported row's owning class has no
interface-registry entry, and (for a store with well-formed, duplicate
free signatures) a stored method whose class is registered as an
interface never appears, in strict or loose mode, whatever its raw
entry-point flag or caller count. -/
theorem classifier_omits_interface_methods (st : Store) (strict : Bool)
    (minCalls : Nat) :
    (∀ row ∈ listEntryPoints st strict minCalls,
      lookupInterface st row.className = none) ∧
    (∀ sig info, (st.methodInfo.map (·.1)).Nodup →
      (sig, info) ∈ st.methodInfo →
      (lookupInterface st info.className).isSome →
      ∀ row ∈ listEntryPoints st strict minCalls, row.method ≠ sig) := by
  constructor
  · intro row hrow
    obtain ⟨p, _, _, hcls, hnone⟩ := listEntryPoints_rows st strict minCalls row hrow
    rw [hcls]
    exact hnone
  · intro sig info hnodup hmem hiface row hrow heq
    obtain ⟨p, hp, hpm, _, hnone⟩ := listEntryPoints_rows st strict minCalls row hrow
    have hpsig : p = (sig, p.2) := by
      rw [← heq, hpm]
    have : p.2 = info := by
      apply assoc_nodup_unique st.methodInfo hnodup sig
      · rw [← hpsig]
        exact hp
      · exact hmem
    rw [this] at hnone
    rw [hnone] at hiface
    cases hiface

/-- Witness for C10: `I#m()` is flagged as a raw entry point, called by
nobody, but owned by the registered interface `I`; it is reported in
neither strict nor loose mode. -/
theorem classifier_omits_interface_methods_witness :
    (∀ row ∈ listEntryPoints stIfaceEntry true 1, row.method ≠ "I#m()") ∧
    (∀ row ∈ listEntryPoints stIfaceEntry false 0, row.method ≠ "I#m()") := by
  constructor
  · exact (classifier_omits_interface_methods stIfaceEntry true 1).2 "I#m()"
      ⟨"I", "", "public", false, true, "", "", "", "", []⟩
      (by decide) (by decide) (by decide)
  · exact (classifier_omits_interface_methods stIfaceEntry false 0).2 "I#m()"
      ⟨"I", "", "public", false, true, "", "", "", "", []⟩
      (by decide) (by decide) (by decide)

theorem lookupForward_ne_nil_mem_keysFR (st : Store) (m : String)
    (h : lookupForward st m ≠ []) : m ∈ keysFR st := by
  unfold lookupForward lookupA at h
  cases hfind : st.forwardCalls.find? (fun p => p.1 == m) with
  | none => rw [hfind] at h; simp at h
  | some p =>
    have hmem := List.mem_of_find?_eq_some hfind
    have hpred := List.find?_some hfind
    rw [beq_iff_eq] at hpred
    unfold keysFR
    refine Finset.mem_union_left _ ?_
    rw [List.mem_toFinset, ← hpred]
    exact List.mem_map.mpr ⟨p, hmem, rfl⟩

theorem lookupReverse_ne_nil_mem_keysFR (st : Store) (m : String)
    (h : lookupReverse st m ≠ []) : m ∈ keysFR st := by
  unfold lookupReverse lookupA at h
  cases hfind : st.reverseCalls.find? (fun p => p.1 == m) with
  | none => rw [hfind] at h; simp at h
  | some p =>
    have hmem := List.mem_of_find?_eq_some hfind
    have hpred := List.find?_some hfind
    rw [beq_iff_eq] at hpred
    unfold keysFR
    refine Finset.mem_union_right _ ?_
    rw [List.mem_toFinset, ← hpred]
    exact List.mem_map.mpr ⟨p, hmem, rfl⟩

theorem card_sdiff_insert_succ (K v : Finset String) (m : String)
    (hm : m ∈ K) (hnv : m ∉ v) :
    (K \ insert m v).card + 1 = (K \ v).card := by
  have hmem : m ∈ K \ v := Finset.mem_sdiff.mpr ⟨hm, hnv⟩
  rw [Finset.sdiff_insert, Finset.card_erase_of_mem hmem]
  have : 0 < (K \ v).card := Finset.card_pos.mpr ⟨m, hmem⟩
  omega

theorem printTreeRec_maxDepth_stable (ctx : TravCtx) (method : String)
    (depth maxDepth : Nat) (visited acc : Finset String) (reached : Bool) :
    ∀ m2 : Nat, (keysFR ctx.st \ visited).card + depth ≤ maxDepth →
      (keysFR ctx.st \ visited).card + depth ≤ m2 →
      printTreeRec ctx method depth maxDepth visited acc reached =
        printTreeRec ctx method depth m2 visited acc reached := by
  refine printTreeRec.induct ctx
    (fun method depth maxDepth visited acc reached =>
      ∀ m2 : Nat, (keysFR ctx.st \ visited).card + depth ≤ maxDepth →
        (keysFR ctx.st \ visited).card + depth ≤ m2 →
        printTreeRec ctx method depth maxDepth visited acc reached =
          printTreeRec ctx method depth m2 visited acc reached)
    (fun callers childDepth maxDepth visited acc reached =>
      ∀ m2 : Nat,
        ((keysFR ctx.st \ visited).card + childDepth ≤ maxDepth ∧
          (keysFR ctx.st \ visited).card + childDepth ≤ m2) ∨ callers = [] →
        goRevCallees ctx callers childDepth maxDepth visited acc reached =
          goRevCallees ctx callers childDepth m2 visited acc reached)
    (fun edges childDepth maxDepth visited acc reached =>
      ∀ m2 : Nat,
        ((keysFR ctx.st \ visited).card + childDepth ≤ maxDepth ∧
          (keysFR ctx.st \ visited).card + childDepth ≤ m2) ∨ edges = [] →
        goCallees ctx edges childDepth maxDepth visited acc reached =
          goCallees ctx edges childDepth m2 visited acc reached)
    (fun callee impls childDepth maxDepth visited acc reached =>
      ∀ m2 : Nat, (keysFR ctx.st \ visited).card + childDepth ≤ maxDepth →
        (keysFR ctx.st \ visited).card + childDepth ≤ m2 →
        implBlockFor ctx callee impls childDepth maxDepth visited acc reached =
          implBlockFor ctx callee impls childDepth m2 visited acc reached)
    (fun callee impls childDepth maxDepth visited acc reached =>
      ∀ m2 : Nat, (keysFR ctx.st \ visited).card + childDepth ≤ maxDepth →
        (keysFR ctx.st \ visited).card + childDepth ≤ m2 →
        goImpls ctx callee impls childDepth maxDepth visited acc reached =
          goImpls ctx callee impls childDepth m2 visited acc reached)
    ?_ ?_ ?_ ?_ ?_ ?_ ?_ ?_ ?_ ?_ ?_ ?_ ?_ ?_ ?_ ?_ ?_ ?_ ?_
    method depth maxDepth visited acc reached
  · -- depth exhausted: the bound rules this case out
    intro method depth maxDepth visited acc reached hlt m2 h1 h2
    exact absurd h1 (by omega)
  · -- excluded node
    intro method depth maxDepth visited acc reached hlt hni m2 h1 h2
    rw [printTreeRec.eq_def, printTreeRec.eq_def, if_neg hlt,
      if_neg (show ¬ m2 < depth by omega), if_pos hni, if_pos hni]
  · -- circular node
    intro method depth maxDepth visited acc reached hlt hni hvis m2 h1 h2
    rw [printTreeRec.eq_def, printTreeRec.eq_def, if_neg hlt,
      if_neg (show ¬ m2 < depth by omega), if_neg hni, if_neg hni,
      if_pos hvis, if_pos hvis]
  · -- subtree cut
    intro method depth maxDepth visited acc reached hlt hni hvis hexc m2 h1 h2
    rw [printTreeRec.eq_def, printTreeRec.eq_def, if_neg hlt,
      if_neg (show ¬ m2 < depth by omega), if_neg hni, if_neg hni,
      if_neg hvis, if_neg hvis]
    dsimp only
    rw [if_pos hexc, if_pos hexc]
  · -- forward descent
    intro method depth maxDepth visited acc reached hlt hni hvis acc2 visited2
      hexc hfw IH m2 h1 h2
    have hinv : ((keysFR ctx.st \ insert method visited).card + (depth + 1) ≤ maxDepth ∧
        (keysFR ctx.st \ insert method visited).card + (depth + 1) ≤ m2) ∨
        lookupForward ctx.st method = [] := by
      by_cases hemp : lookupForward ctx.st method = []
      · exact Or.inr hemp
      · left
        have hm := lookupForward_ne_nil_mem_keysFR ctx.st method hemp
        have hcard := card_sdiff_insert_succ (keysFR ctx.st) visited method hm hvis
        constructor <;> omega
    have IH2 := IH m2 hinv
    rw [printTreeRec.eq_def, printTreeRec.eq_def, if_neg hlt,
      if_neg (show ¬ m2 < depth by omega), if_neg hni, if_neg hni,
      if_neg hvis, if_neg hvis]
    dsimp only
    rw [if_neg hexc, if_neg hexc, if_pos hfw, if_pos hfw, IH2]
  · -- reverse descent
    intro method depth maxDepth visited acc reached hlt hni hvis acc2 visited2
      hexc hfw IH m2 h1 h2
    have hinv : ((keysFR ctx.st \ insert method visited).card + (depth + 1) ≤ maxDepth ∧
        (keysFR ctx.st \ insert method visited).card + (depth + 1) ≤ m2) ∨
        lookupReverse ctx.st method = [] := by
      by_cases hemp : lookupReverse ctx.st method = []
      · exact Or.inr hemp
      · left
        have hm := lookupReverse_ne_nil_mem_keysFR ctx.st method hemp
        have hcard := card_sdiff_insert_succ (keysFR ctx.st) visited method hm hvis
        constructor <;> omega
    have IH2 := IH m2 hinv
    rw [printTreeRec.eq_def, printTreeRec.eq_def, if_neg hlt,
      if_neg (show ¬ m2 < depth by omega), if_neg hni, if_neg hni,
      if_neg hvis, if_neg hvis]
    dsimp only
    rw [if_neg hexc, if_neg hexc, if_neg hfw, if_neg hfw, IH2]
  · -- goRevCallees []
    intro childDepth maxDepth visited acc reached m2 hinv
    rw [goRevCallees.eq_def, goRevCallees.eq_def]
  · -- goRevCallees cons
    intro childDepth maxDepth visited acc reached p ps r1 IH1 IH2 m2 hinv
    rcases hinv with ⟨hb1, hb2⟩ | hnil
    · have h1 := IH1 m2 hb1 hb2
      have h2 := IH2 m2 (Or.inl ⟨hb1, hb2⟩)
      rw [goRevCallees.eq_def, goRevCallees.eq_def]
      dsimp only
      rw [← h1, ← h2]
    · cases hnil
  · -- goCallees []
    intro childDepth maxDepth visited acc reached m2 hinv
    rw [goCallees.eq_def, goCallees.eq_def]
  · -- goCallees cons, excluded edge
    intro childDepth maxDepth visited acc reached e rest hninc IH m2 hinv
    rcases hinv with ⟨hb1, hb2⟩ | hnil
    · have h := IH m2 (Or.inl ⟨hb1, hb2⟩)
      rw [goCallees.eq_def, goCallees.eq_def]
      dsimp only
      rw [if_pos hninc, if_pos hninc, h]
    · cases hnil
  · -- goCallees cons, main path
    intro childDepth maxDepth visited acc reached e rest hinc r1 ib IH1 IH4 IH4b
      IH3 m2 hinv
    rcases hinv with ⟨hb1, hb2⟩ | hnil
    · have h1 := IH1 m2 hb1 hb2
      have h4 := IH4 m2 hb1 hb2
      have h3 := IH3 m2 (Or.inl ⟨hb1, hb2⟩)
      rw [goCallees.eq_def, goCallees.eq_def]
      dsimp only
      rw [if_neg hinc, if_neg hinc, ← h1, ← h4, ← h3]
    · cases hnil
  · -- implBlockFor: follow and cut
    intro callee impls childDepth maxDepth visited acc reached hne hfo hexc m2 h1 h2
    rw [implBlockFor.eq_def, implBlockFor.eq_def]
    dsimp only
    rw [if_pos hne, if_pos hne, if_pos hfo, if_pos hfo, if_pos hexc, if_pos hexc]
  · -- implBlockFor: follow and expand
    intro callee impls childDepth maxDepth visited acc reached hne implInfos hfo
      hexc implClasses filtered IH5 m2 h1 h2
    have h5 := IH5 m2 h1 h2
    simp only [filtered, implClasses, implInfos, dite_eq_ite] at h5
    rw [implBlockFor.eq_def, implBlockFor.eq_def]
    dsimp only
    rw [if_pos hne, if_pos hne, if_pos hfo, if_pos hfo, if_neg hexc, if_neg hexc,
      ← h5]
  · -- implBlockFor: not following implementations
    intro callee impls childDepth maxDepth visited acc reached hne hfo m2 h1 h2
    rw [implBlockFor.eq_def, implBlockFor.eq_def]
    dsimp only
    rw [if_pos hne, if_pos hne, if_neg hfo, if_neg hfo]
  · -- implBlockFor: empty implementation string
    intro callee impls childDepth maxDepth visited acc reached hne m2 h1 h2
    rw [implBlockFor.eq_def, implBlockFor.eq_def]
    dsimp only
    rw [if_neg hne, if_neg hne]
  · -- goImpls []
    intro callee childDepth maxDepth visited acc reached m2 h1 h2
    rw [goImpls.eq_def, goImpls.eq_def]
  · -- goImpls cons, unresolved
    intro callee childDepth maxDepth visited acc reached p ps hfind IH m2 h1 h2
    have h := IH m2 h1 h2
    rw [goImpls.eq_def, goImpls.eq_def]
    dsimp only
    rw [hfind, h]
  · -- goImpls cons, excluded
    intro callee childDepth maxDepth visited acc reached p ps implMethod hfind hninc
      IH m2 h1 h2
    have h := IH m2 h1 h2
    rw [goImpls.eq_def, goImpls.eq_def]
    dsimp only
    rw [hfind]
    dsimp only
    rw [if_pos hninc, if_pos hninc, h]
  · -- goImpls cons, descend
    intro callee childDepth maxDepth visited acc reached p ps implMethod hfind hinc
      r1 IH1 IH2 m2 h1 h2
    have ha := IH1 m2 h1 h2
    have hb := IH2 m2 h1 h2
    rw [goImpls.eq_def, goImpls.eq_def]
    dsimp only
    rw [hfind]
    dsimp only
    rw [if_neg hinc, if_neg hinc, ← ha, ← hb]

/-- C2: forward traversal cannot loop: a signature already on the
path-local visited set is emitted once tagged circular and descent stops
there with all threaded state unchanged; and the traversal result is
independent of `maxDepth` as soon as `maxDepth` exceeds the bound
`|sources \ visited| + depth` that path growth can never pass — so
arbitrarily large depth ceilings yield the same finite output (the walk
itself is a total function, accepted by well-founded recursion). -/
theorem forward_traversal_cycle_safe :
    (∀ (ctx : TravCtx) (method : String) (depth maxDepth : Nat)
      (visited acc : Finset String) (reached : Bool),
      method ∈ visited → shouldInclude ctx.em method = true → depth ≤ maxDepth →
      printTreeRec ctx method depth maxDepth visited acc reached =
        ([OutItem.node method depth true], acc, reached)) ∧
    (∀ (ctx : TravCtx) (method : String) (depth : Nat)
      (visited acc : Finset String) (reached : Bool) (m1 m2 : Nat),
      (keysFR ctx.st \ visited).card + depth ≤ m1 →
      (keysFR ctx.st \ visited).card + depth ≤ m2 →
      printTreeRec ctx method depth m1 visited acc reached =
        printTreeRec ctx method depth m2 visited acc reached) := by
  constructor
  · intro ctx method depth maxDepth visited acc reached hvis hinc hd
    rw [printTreeRec.eq_def, if_neg (by omega), if_neg (by simp [hinc]),
      if_pos hvis]
  · intro ctx method depth visited acc reached m1 m2 h1 h2
    exact printTreeRec_maxDepth_stable ctx method depth m1 visited acc reached m2 h1 h2

/-- Witness for C2 on the two-edge cycle: revisiting `A` at depth 2 with
`A` on the path emits only the circular marker, and `maxDepth = 10`
versus `maxDepth = 1000000` give identical traversals from `A`. -/
theorem forward_traversal_cycle_safe_witness :
    printTreeRec ⟨stCycle, em0, false, true, true⟩ "A" 2 10
        (insert "A" (insert "B" ∅)) ∅ false =
      ([OutItem.node "A" 2 true], ∅, false) ∧
    printForwardTree stCycle em0 false true "A" 10 =
      printForwardTree stCycle em0 false true "A" 1000000 := by
  constructor
  · exact forward_traversal_cycle_safe.1 ⟨stCycle, em0, false, true, true⟩ "A" 2 10
      (insert "A" (insert "B" ∅)) ∅ false (by decide) (by decide) (by decide)
  · exact forward_traversal_cycle_safe.2 ⟨stCycle, em0, false, true, true⟩ "A" 0
      ∅ ∅ false 10 1000000 (by decide) (by decide)

theorem pathsFrom_ne_nil (st : Store) (fuel : Nat) (m : String) :
    ∀ p ∈ pathsFrom st fuel m, p ≠ [] := by
  intro p hp
  cases fuel with
  | zero => cases hp
  | succ f =>
    unfold pathsFrom at hp
    rcases List.mem_cons.mp hp with rfl | hp
    · simp
    · rw [List.mem_flatMap] at hp
      obtain ⟨e, _, hp⟩ := hp
      rcases List.mem_map.mp hp with ⟨q, _, rfl⟩
      simp

theorem getLast?_cons_of_ne_nil (m : String) (p : List String) (h : p ≠ []) :
    (m :: p).getLast? = p.getLast? := by
  cases p with
  | nil => exact absurd rfl h
  | cons a l => exact List.getLast?_cons_cons

theorem length_filter_map_cons (m s : String) (paths : List (List String))
    (hne : ∀ p ∈ paths, p ≠ []) :
    ((paths.map (m :: ·)).filter (fun p => p.getLast? == some s)).length =
      (paths.filter (fun p => p.getLast? == some s)).length := by
  induction paths with
  | nil => rfl
  | cons q qs ih =>
    have hq : q ≠ [] := hne q (List.mem_cons_self q qs)
    have hih := ih (fun p hp => hne p (List.mem_cons_of_mem q hp))
    rw [List.map_cons, List.filter_cons, List.filter_cons,
      getLast?_cons_of_ne_nil m q hq]
    by_cases hpred : (q.getLast? == some s) = true
    · simp [hpred, hih]
    · rw [Bool.not_eq_true] at hpred
      simp [hpred, hih]

theorem length_filter_flatMap_paths (st : Store) (m s : String)
    (edges : List CallEdge) (f : Nat) :
    ((edges.flatMap (fun e => (pathsFrom st f e.method).map (m :: ·))).filter
        (fun p => p.getLast? == some s)).length =
      (edges.flatMap (fun e => (pathsFrom st f e.method).filter
        (fun p => p.getLast? == some s))).length := by
  induction edges with
  | nil => rfl
  | cons e rest ih =>
    rw [List.flatMap_cons, List.flatMap_cons, List.filter_append,
      List.length_append, List.length_append, ih,
      length_filter_map_cons m s _ (pathsFrom_ne_nil st f e.method)]

theorem countNode_append (s : String) (a b : List OutItem) :
    countNode s (a ++ b) = countNode s a + countNode s b := by
  unfold countNode
  exact List.countP_append _ a b

theorem implBlockFor_empty_impls (ctx : TravCtx) (callee : String)
    (childDepth maxDepth : Nat) (visited acc : Finset String) (reached : Bool) :
    implBlockFor ctx callee "" childDepth maxDepth visited acc reached =
      ([], acc, reached) := by
  rw [implBlockFor.eq_def]
  simp

theorem countNode_nil (s : String) : countNode s [] = 0 := rfl

theorem countNode_cons_node (s m : String) (depth : Nat) (circ : Bool)
    (rest : List OutItem) :
    countNode s (OutItem.node m depth circ :: rest) =
      countNode s rest + (if m == s then 1 else 0) := by
  unfold countNode
  rw [List.countP_cons]

theorem countNode_pm (s : String) (c : Prop) [Decidable c] (d : Nat) :
    countNode s (if c then [OutItem.parentMarker d] else []) = 0 := by
  split <;> rfl

theorem lookupForward_mem (st : Store) (m : String) (e : CallEdge)
    (he : e ∈ lookupForward st m) : ∃ q ∈ st.forwardCalls, e ∈ q.2 := by
  unfold lookupForward lookupA at he
  cases hfind : st.forwardCalls.find? (fun p => p.1 == m) with
  | none => rw [hfind] at he; cases he
  | some q =>
    rw [hfind] at he
    exact ⟨q, List.mem_of_find?_eq_some hfind, he⟩

theorem pathsFrom_succ (st : Store) (f : Nat) (m : String) :
    pathsFrom st (f + 1) m =
      [m] :: (lookupForward st m).flatMap
        (fun e => (pathsFrom st f e.method).map (m :: ·)) := rfl

theorem printTreeRec_path_count (st : Store) (debug follow : Bool) (s : String)
    (himpl : ∀ q ∈ st.forwardCalls, ∀ e ∈ q.2, e.implementations = "")
    (method : String) (depth maxDepth : Nat) (visited acc : Finset String)
    (reached : Bool) :
    (∀ p ∈ pathsFrom st (maxDepth + 1 - depth) method,
      p.Nodup ∧ ∀ x ∈ p, x ∉ visited) →
    countNode s (printTreeRec ⟨st, em0, debug, true, follow⟩ method depth maxDepth
        visited acc reached).1 =
      ((pathsFrom st (maxDepth + 1 - depth) method).filter
        (fun p => p.getLast? == some s)).length := by
  refine printTreeRec.induct ⟨st, em0, debug, true, follow⟩
    (fun method depth maxD visited acc reached =>
      (∀ p ∈ pathsFrom st (maxD + 1 - depth) method,
        p.Nodup ∧ ∀ x ∈ p, x ∉ visited) →
      countNode s (printTreeRec ⟨st, em0, debug, true, follow⟩ method depth maxD
          visited acc reached).1 =
        ((pathsFrom st (maxD + 1 - depth) method).filter
          (fun p => p.getLast? == some s)).length)
    (fun _ _ _ _ _ _ => True)
    (fun edges childDepth maxD visited acc reached =>
      (∀ e ∈ edges, e.implementations = "") →
      (∀ e ∈ edges, ∀ p ∈ pathsFrom st (maxD + 1 - childDepth) e.method,
        p.Nodup ∧ ∀ x ∈ p, x ∉ visited) →
      countNode s (goCallees ⟨st, em0, debug, true, follow⟩ edges childDepth maxD
          visited acc reached).1 =
        (edges.flatMap (fun e => (pathsFrom st (maxD + 1 - childDepth)
          e.method).filter (fun p => p.getLast? == some s))).length)
    (fun _ _ _ _ _ _ _ => True)
    (fun _ _ _ _ _ _ _ => True)
    ?_ ?_ ?_ ?_ ?_ ?_ ?_ ?_ ?_ ?_ ?_ ?_ ?_ ?_ ?_ ?_ ?_ ?_ ?_
    method depth maxDepth visited acc reached
  · -- depth exhausted: zero fuel, zero paths
    intro method depth maxD visited acc reached hlt hsafe
    have hf : maxD + 1 - depth = 0 := by omega
    rw [printTreeRec.eq_def, if_pos hlt, hf]
    rfl
  · -- excluded: impossible with the empty rule sets
    intro method depth maxD visited acc reached hlt hni hsafe
    exact absurd (shouldInclude_em0 method) hni
  · -- circular: impossible, the one-node path is disjoint from visited
    intro method depth maxD visited acc reached hlt hni hvis hsafe
    have hf : maxD + 1 - depth = (maxD - depth) + 1 := by omega
    have hmem : [method] ∈ pathsFrom st (maxD + 1 - depth) method := by
      rw [hf]
      unfold pathsFrom
      exact List.mem_cons_self _ _
    obtain ⟨_, hdis⟩ := hsafe [method] hmem
    exact absurd hvis (by simpa using hdis method (List.mem_cons_self _ _))
  · -- subtree cut: impossible with the empty rule sets
    intro method depth maxD visited acc reached hlt hni hvis hexc hsafe
    have := shouldExcludeChildren_em0 method
    dsimp only at hexc
    rw [this] at hexc
    cases hexc
  · -- forward descent: one emission for the node plus one per child path
    intro method depth maxD visited acc reached hlt hni hvis acc2 visited2
      hexc hfw IH hsafe
    have hf : maxD + 1 - depth = (maxD - depth) + 1 := by omega
    have hf2 : maxD + 1 - (depth + 1) = maxD - depth := by omega
    have hsafe2 : ∀ e ∈ lookupForward st method,
        ∀ p ∈ pathsFrom st (maxD + 1 - (depth + 1)) e.method,
          p.Nodup ∧ ∀ x ∈ p, x ∉ insert method visited := by
      intro e he p hp
      rw [hf2] at hp
      have hmem : (method :: p) ∈ pathsFrom st ((maxD - depth) + 1) method := by
        unfold pathsFrom
        refine List.mem_cons_of_mem _ ?_
        rw [List.mem_flatMap]
        exact ⟨e, he, List.mem_map.mpr ⟨p, hp, rfl⟩⟩
      obtain ⟨hnd, hdis⟩ := hsafe (method :: p) (by rw [hf]; exact hmem)
      rw [List.nodup_cons] at hnd
      refine ⟨hnd.2, ?_⟩
      intro x hx
      rw [Finset.mem_insert]
      push_neg
      exact ⟨fun hxm => absurd (hxm ▸ hx) hnd.1,
        hdis x (List.mem_cons_of_mem _ hx)⟩
    have himplE : ∀ e ∈ lookupForward st method, e.implementations = "" := by
      intro e he
      obtain ⟨q, hq, he2⟩ := lookupForward_mem st method e he
      exact himpl q hq e he2
    have hcount := IH himplE hsafe2
    dsimp only at hcount
    rw [hf2] at hcount
    rw [printTreeRec.eq_def, if_neg hlt, if_neg hni, if_neg hvis]
    dsimp only
    rw [if_neg hexc, if_pos hfw]
    dsimp only
    rw [countNode_cons_node, hcount, hf, pathsFrom_succ, List.filter_cons]
    have hcond : (([method] : List String).getLast? == some s) = (method == s) := rfl
    rw [hcond]
    by_cases hms : (method == s) = true
    · rw [if_pos hms, if_pos hms, List.length_cons,
        length_filter_flatMap_paths st method s (lookupForward st method)
          (maxD - depth)]
    · rw [Bool.not_eq_true] at hms
      rw [if_neg (by simp [hms]), if_neg (by simp [hms]),
        length_filter_flatMap_paths st method s (lookupForward st method)
          (maxD - depth)]
      omega
  · -- reverse descent: impossible, the context is forward
    intro method depth maxD visited acc reached hlt hni hvis acc2 visited2
      hexc hfw IH hsafe
    exact absurd rfl hfw
  · intro childDepth maxD visited acc reached
    trivial
  · intros
    trivial
  · -- goCallees []
    intro childDepth maxD visited acc reached himplE hsafeE
    rw [goCallees.eq_def]
    rfl
  · -- goCallees cons with excluded edge: impossible with empty rules
    intro childDepth maxD visited acc reached e rest hninc IH himplE hsafeE
    exact absurd (shouldInclude_em0 e.method) hninc
  · -- goCallees cons: the edge contributes its subtree count
    intro childDepth maxD visited acc reached e rest hinc r1 ib IH1 IH4 IH4b IH3
      himplE hsafeE
    have he_impl : e.implementations = "" := himplE e (List.mem_cons_self e rest)
    have h1 := IH1 (hsafeE e (List.mem_cons_self e rest))
    have h3 := IH3 (fun x hx => himplE x (List.mem_cons_of_mem e hx))
      (fun x hx => hsafeE x (List.mem_cons_of_mem e hx))
    rw [goCallees.eq_def]
    dsimp only
    rw [if_neg hinc]
    dsimp only
    rw [he_impl, implBlockFor_empty_impls]
    dsimp only
    rw [List.flatMap_cons, List.length_append, countNode_append, countNode_append,
      countNode_append, countNode_pm, countNode_nil, h1]
    simp only [ib, r1] at h3
    rw [he_impl, implBlockFor_empty_impls] at h3
    dsimp only at h3
    rw [h3]
    omega
  · intros
    trivial
  · intros
    trivial
  · intros
    trivial
  · intros
    trivial
  · intros
    trivial
  · intros
    trivial
  · intros
    trivial
  · intros
    trivial

/-- C4: with the default (empty) exclusion sets and implementation-free
forward edges, cycle detection is per path: on a reachable subgraph that
is acyclic up to the depth ceiling, every signature is emitted exactly
once per distinct forward path from the root that reaches it (so sibling
branches never suppress each other's visits). In the diamond
`root -> A -> C`, `root -> B -> C` the node `C` is emitted twice — see
the witness. -/
theorem forward_emits_once_per_path (st : Store) (root : String)
    (maxDepth : Nat) (s : String)
    (himpl : ∀ q ∈ st.forwardCalls, ∀ e ∈ q.2, e.implementations = "")
    (hacyc : ∀ p ∈ pathsFrom st (maxDepth + 1) root, p.Nodup) :
    countNode s (printForwardTree st em0 false true root maxDepth).1 =
      ((pathsFrom st (maxDepth + 1) root).filter
        (fun p => p.getLast? == some s)).length := by
  unfold printForwardTree
  have h := printTreeRec_path_count st false true s himpl root 0 maxDepth ∅ ∅ false
    (by
      intro p hp
      rw [Nat.sub_zero] at hp
      exact ⟨hacyc p hp, fun x _ => Finset.not_mem_empty x⟩)
  simpa using h

/-- Witness for C4: in the diamond graph, `C` is emitted exactly twice —
once per distinct path `root,A,C` and `root,B,C`. -/
theorem forward_emits_once_per_path_witness :
    countNode "C" (printForwardTree stDiamond em0 false true "root" 10).1 = 2 := by
  have h := forward_emits_once_per_path stDiamond "root" 10 "C"
    (by decide) (by decide)
  rw [h]
  decide

end CallTree
